import Mathlib

/-!
Verification development for the `ascii_corrector` repository.

The Python sources under `src/ascii_corrector` are shallowly embedded as
executable Lean definitions: grids are `List (List Char)` matrices, Python
exceptions become an `Except` monad with an explicit error kind, Python
`while` loops become fuel-indexed structural recursions (the fuel is always
sufficient for the bounded loops of the source, and every invariant proved
here holds for every fuel value), and Python `float` tunables are carried
as exact integer ratios.  Theorems at the end settle the specification
claims against these definitions.
-/

set_option autoImplicit false

/-- Classification of ASCII characters for diagram parsing, from
`domain/enums.py` (`CharacterClass`). -/
inductive CharacterClass where
  | horizontal
  | vertical
  | corner
  | junction
  | diagonalDown
  | diagonalUp
  | arrow
  | text
  | whitespace
  | unknown
deriving DecidableEq, Repr

/-- Direction of line traversal, from `domain/enums.py` (`Direction`). -/
inductive Direction where
  | horizontal
  | vertical
  | diagonalDown
  | diagonalUp
deriving DecidableEq, Repr

/-- Apostrophe character, written by code point to keep the source text free
of bare quote characters. -/
def apostropheChar : Char := Char.ofNat 39

/-- Backtick character, written by code point. -/
def backtickChar : Char := Char.ofNat 96

/-- ASCII horizontal line characters (`character_constants.ASCII_HORIZONTAL`). -/
def ASCII_HORIZONTAL : List Char := ['-', '=', '_']

/-- ASCII vertical line characters (`character_constants.ASCII_VERTICAL`). -/
def ASCII_VERTICAL : List Char := ['|', '!']

/-- ASCII corner characters (`character_constants.ASCII_CORNER`). -/
def ASCII_CORNER : List Char := ['+', '.', apostropheChar, backtickChar]

/-- ASCII junction characters (`character_constants.ASCII_JUNCTION`). -/
def ASCII_JUNCTION : List Char := ['*']

/-- ASCII arrow characters (`character_constants.ASCII_ARROW`). -/
def ASCII_ARROW : List Char := ['<', '>', '^', 'v', 'V']

/-- ASCII bridge characters (`character_constants.ASCII_BRIDGE`). -/
def ASCII_BRIDGE : List Char := ['+', '.']

/-- Unicode horizontal line characters (`character_constants.UNICODE_HORIZONTAL`). -/
def UNICODE_HORIZONTAL : List Char := [Char.ofNat 0x2500, Char.ofNat 0x2501, Char.ofNat 0x2550]

/-- Unicode vertical line characters (`character_constants.UNICODE_VERTICAL`). -/
def UNICODE_VERTICAL : List Char := [Char.ofNat 0x2502, Char.ofNat 0x2503, Char.ofNat 0x2551]

/-- Unicode pure corner characters (`character_constants.UNICODE_CORNER`). -/
def UNICODE_CORNER : List Char :=
  [Char.ofNat 0x250C, Char.ofNat 0x2510, Char.ofNat 0x2514, Char.ofNat 0x2518,
   Char.ofNat 0x250F, Char.ofNat 0x2513, Char.ofNat 0x2517, Char.ofNat 0x251B,
   Char.ofNat 0x2554, Char.ofNat 0x2557, Char.ofNat 0x255A, Char.ofNat 0x255D]

/-- Unicode junction characters (`character_constants.UNICODE_JUNCTION`). -/
def UNICODE_JUNCTION : List Char :=
  [Char.ofNat 0x251C, Char.ofNat 0x2524, Char.ofNat 0x252C, Char.ofNat 0x2534,
   Char.ofNat 0x253C, Char.ofNat 0x2520, Char.ofNat 0x2528, Char.ofNat 0x252F,
   Char.ofNat 0x2537, Char.ofNat 0x253F, Char.ofNat 0x254B]

/-- Unicode bridge characters (`character_constants.UNICODE_BRIDGE`). -/
def UNICODE_BRIDGE : List Char := UNICODE_CORNER ++ UNICODE_JUNCTION

/-- Diagonal down characters (`character_constants.DIAGONAL_DOWN`). -/
def DIAGONAL_DOWN : List Char := ['\\', Char.ofNat 0x2572]

/-- Diagonal up characters (`character_constants.DIAGONAL_UP`). -/
def DIAGONAL_UP : List Char := ['/', Char.ofNat 0x2571]

/-- All horizontal line characters (`character_constants.HORIZONTAL_CHARS`). -/
def HORIZONTAL_CHARS : List Char := ASCII_HORIZONTAL ++ UNICODE_HORIZONTAL

/-- All vertical line characters (`character_constants.VERTICAL_CHARS`). -/
def VERTICAL_CHARS : List Char := ASCII_VERTICAL ++ UNICODE_VERTICAL

/-- All corner characters (`character_constants.CORNER_CHARS`). -/
def CORNER_CHARS : List Char := ASCII_CORNER ++ UNICODE_CORNER

/-- All junction characters (`character_constants.JUNCTION_CHARS`). -/
def JUNCTION_CHARS : List Char := ASCII_JUNCTION ++ UNICODE_JUNCTION

/-- All bridge characters (`character_constants.BRIDGE_CHARS`). -/
def BRIDGE_CHARS : List Char := ASCII_BRIDGE ++ UNICODE_BRIDGE

/-- Whitespace characters (`character_constants.WHITESPACE_CHARS`). -/
def WHITESPACE_CHARS : List Char := [' ', '\t']

/-- Membership in a character set, the embedding of Python `value in frozenset`. -/
def charIn (s : List Char) (c : Char) : Bool := s.contains c

/-- Model of Python `str.isalnum` for a single character.  It agrees with
Python on every code point this development manipulates (ASCII letters and
digits are alphanumeric; ASCII punctuation, box-drawing glyphs and
whitespace are not). -/
def pyIsAlnum (c : Char) : Bool := c.isAlpha || c.isDigit

/-- Classification sets private to `domain/character.py`: these are the
ASCII-only sets the classifier actually consults (they shadow the richer
sets of `character_constants.py`). -/
def classifierHorizontal : List Char := ['-', '=', '_']

/-- Vertical set of `domain/character.py` (`_VERTICAL_CHARS`). -/
def classifierVertical : List Char := ['|', '!']

/-- Corner set of `domain/character.py` (`_CORNER_CHARS`). -/
def classifierCorner : List Char := ['+', '.', apostropheChar, backtickChar]

/-- Junction set of `domain/character.py` (`_JUNCTION_CHARS`). -/
def classifierJunction : List Char := ['*']

/-- Arrow set of `domain/character.py` (`_ARROW_CHARS`). -/
def classifierArrow : List Char := ['<', '>', '^', 'v', 'V']

/-- Whitespace set of `domain/character.py` (`_WHITESPACE_CHARS`). -/
def classifierWhitespace : List Char := [' ', '\t']

/-- Embedding of `domain/character.py::_classify_character`. -/
def classifyCharacter (value : Char) : CharacterClass :=
  if charIn classifierHorizontal value then .horizontal
  else if charIn classifierVertical value then .vertical
  else if charIn classifierCorner value then .corner
  else if charIn classifierJunction value then .junction
  else if charIn classifierArrow value then .arrow
  else if charIn classifierWhitespace value then .whitespace
  else if pyIsAlnum value then .text
  else .unknown

/-- Position value object from `domain/position.py`: an immutable pair of
integer coordinates. -/
structure Pos where
  row : Int
  col : Int
deriving DecidableEq, Repr

/-- Cell from `domain/cell.py`: a character together with its position.  The
Python `Character` wrapper only carries the single code point, so it is
embedded directly as `Char`. -/
structure Cell where
  character : Char
  position : Pos
deriving DecidableEq, Repr

/-- Line from `domain/line.py`: a sequence of cells and a direction. -/
structure Line where
  cells : List Cell
  direction : Direction
deriving DecidableEq, Repr

/-- First element of a list minimising a key, the embedding of Python
`min(xs, key=f)` (which returns the first minimiser). -/
def minByFirst {α : Type} (f : α → Int) : α → List α → α
  | best, [] => best
  | best, x :: xs => if f x < f best then minByFirst f x xs else minByFirst f best xs

/-- First element of a list maximising a key, the embedding of Python
`max(xs, key=f)` (which returns the first maximiser). -/
def maxByFirst {α : Type} (f : α → Int) : α → List α → α
  | best, [] => best
  | best, x :: xs => if f x > f best then maxByFirst f x xs else maxByFirst f best xs

/-- Embedding of `Line.start_position`: for empty cell lists the Python code
raises; callers only reach it with nonempty cells, so the embedding returns
`none` there. -/
def Line.startPosition (l : Line) : Option Pos :=
  match l.cells with
  | [] => none
  | c :: cs =>
    if l.direction = .horizontal then
      some (minByFirst (fun x => x.position.col) c cs).position
    else
      some (minByFirst (fun x => x.position.row) c cs).position

/-- Embedding of `Line.end_position` under the same convention as
`Line.startPosition`. -/
def Line.endPosition (l : Line) : Option Pos :=
  match l.cells with
  | [] => none
  | c :: cs =>
    if l.direction = .horizontal then
      some (maxByFirst (fun x => x.position.col) c cs).position
    else
      some (maxByFirst (fun x => x.position.row) c cs).position

/-- Embedding of `Line.length`. -/
def Line.lengthCells (l : Line) : Nat := l.cells.length

/-- Embedding of `Line.dominant_row`. -/
def Line.dominantRow (l : Line) : Option Int :=
  match l.direction, l.cells with
  | .horizontal, c :: _ => some c.position.row
  | _, _ => none

/-- Embedding of `Line.dominant_col`. -/
def Line.dominantCol (l : Line) : Option Int :=
  match l.direction, l.cells with
  | .vertical, c :: _ => some c.position.col
  | _, _ => none

/-- Grid from `domain/grid.py`: width and height as stored by the
constructor plus the row-major character matrix. -/
structure Grid where
  width : Nat
  height : Nat
  data : List (List Char)
deriving DecidableEq, Repr

/-- Embedding of `Grid.is_valid_position`. -/
def Grid.isValidPos (g : Grid) (p : Pos) : Bool :=
  0 ≤ p.row && p.row < (g.height : Int) && 0 ≤ p.col && p.col < (g.width : Int)

/-- Raw character lookup `grid._data[row][col]`; the default is never
reached on positions accepted by `Grid.isValidPos` in well-formed grids. -/
def Grid.charAt (g : Grid) (p : Pos) : Char :=
  (g.data.getD p.row.toNat []).getD p.col.toNat ' '

/-- Embedding of `Grid.get_cell`. -/
def Grid.getCell (g : Grid) (p : Pos) : Option Cell :=
  if g.isValidPos p then some ⟨g.charAt p, p⟩ else none

/-- Python exception kinds that the correction layer can raise. -/
inductive PyErr where
  | valueError
  | indexError
deriving DecidableEq, Repr

/-- Functional single-cell update used by the embedding of `set_cell`. -/
def Grid.setChar (g : Grid) (p : Pos) (c : Char) : Grid :=
  { g with data := g.data.set p.row.toNat ((g.data.getD p.row.toNat []).set p.col.toNat c) }

/-- Embedding of `Grid.set_cell`, which raises `IndexError` when the
position is out of bounds. -/
def Grid.setCellE (g : Grid) (p : Pos) (c : Char) : Except PyErr Grid :=
  if g.isValidPos p then .ok (g.setChar p c) else .error .indexError

/-- Embedding of `Grid.clear_cell`. -/
def Grid.clearCellE (g : Grid) (p : Pos) : Except PyErr Grid :=
  g.setCellE p ' '

/-- Python-whitespace test for a single character, the per-character model
of what `str.rstrip()` removes (`str.isspace`). -/
def pyIsSpace (c : Char) : Bool :=
  charIn [' ', '\t', '\n', '\r', Char.ofNat 0x0B, Char.ofNat 0x0C,
          Char.ofNat 0x1C, Char.ofNat 0x1D, Char.ofNat 0x1E, Char.ofNat 0x1F,
          Char.ofNat 0x85, Char.ofNat 0xA0, Char.ofNat 0x1680,
          Char.ofNat 0x2000, Char.ofNat 0x2001, Char.ofNat 0x2002, Char.ofNat 0x2003,
          Char.ofNat 0x2004, Char.ofNat 0x2005, Char.ofNat 0x2006, Char.ofNat 0x2007,
          Char.ofNat 0x2008, Char.ofNat 0x2009, Char.ofNat 0x200A, Char.ofNat 0x2028,
          Char.ofNat 0x2029, Char.ofNat 0x202F, Char.ofNat 0x205F, Char.ofNat 0x3000] c

/-- Embedding of Python `str.rstrip()` on a line of characters. -/
def rstrip (l : List Char) : List Char :=
  (l.reverse.dropWhile pyIsSpace).reverse

/-- Embedding of Python `text.split(chr(10))`: splitting on the newline
character, never returning an empty list. -/
def splitOnNl : List Char → List (List Char)
  | [] => [[]]
  | c :: rest =>
    if c = '\n' then [] :: splitOnNl rest
    else
      match splitOnNl rest with
      | [] => [[c]]
      | h :: t => (c :: h) :: t

/-- Removal of trailing empty lines, the embedding of the
`while lines and not lines[-1]: lines.pop()` loop of `Grid.to_string`. -/
def dropTrailingEmpty (ls : List (List Char)) : List (List Char) :=
  (ls.reverse.dropWhile List.isEmpty).reverse

/-- Newline join, the embedding of `"\n".join(lines)`. -/
def joinNl : List (List Char) → List Char
  | [] => []
  | [l] => l
  | l :: rest => l ++ '\n' :: joinNl rest

/-- Embedding of `Grid.to_string`: strip each row on the right, drop
trailing empty lines, and join with newlines. -/
def Grid.toText (g : Grid) : List Char :=
  joinNl (dropTrailingEmpty (g.data.map rstrip))

/-- Row padded to the target width with spaces, as performed cell by cell by
the `Grid.from_string` write loop over a space-filled grid. -/
def padRow (w : Nat) (l : List Char) : List Char :=
  l ++ List.replicate (w - l.length) ' '

/-- Embedding of `Grid.from_string`. -/
def Grid.fromText (text : List Char) : Grid :=
  if text.isEmpty then ⟨0, 0, []⟩
  else
    let lines := splitOnNl text
    let height := lines.length
    let width := lines.foldr (fun l acc => max l.length acc) 0
    ⟨width, height, lines.map (padRow width)⟩

/-- Embedding of `Grid.copy`; the copy of a grid value is the value itself
in this functional embedding. -/
def Grid.copy (g : Grid) : Grid := g

example : classifyCharacter '-' = .horizontal := by decide
example : classifyCharacter '*' = .junction := by decide
example : classifyCharacter (Char.ofNat 0x2500) = .unknown := by decide
example : classifyCharacter '/' = .unknown := by decide
example : classifyCharacter 'a' = .text := by decide

/-- Helper: grid built from a Lean string literal, used by concrete
examples, counterexamples and witnesses. -/
def gridOfString (s : String) : Grid := Grid.fromText s.data

/-! Line detector, from `detection/line_detector.py`.  The horizontal and
vertical scans of the source are two verbatim copies of one loop shape, so
the embedding factors them through a single one-dimensional scan over an
index accessor; both instantiations below reproduce the source loops
exactly.  `findStopIdx` embeds the inner `while peek < limit` loops that
skip consecutive bridge characters: it returns the first index at or past
`start` holding a non-bridge character (or where the accessor is empty),
and `none` when the scan ran past `limit` (the `while ... else` path). -/

/-- First index at or past the start where scanning past bridge characters
stops, from the peek loops of `line_detector.py`. -/
def findStopIdx (get : Nat → Option Char) (limit : Nat) : Nat → Nat → Option Nat
  | 0, _ => none
  | fuel + 1, i =>
    if i < limit then
      match get i with
      | none => some i
      | some c => if charIn BRIDGE_CHARS c then findStopIdx get limit fuel (i + 1) else some i
    else none

/-- Inner run-collection loop of `line_detector.py`: extend a run with
matching characters, bridging through corner characters only when a
matching character follows them; returns the collected run and the index at
which the scan should resume. -/
def collectRun (get : Nat → Option Char) (limit : Nat) (matchSet : List Char) :
    Nat → Nat → List (Nat × Char) → List (Nat × Char) × Nat
  | 0, i, acc => (acc, i)
  | fuel + 1, i, acc =>
    if i < limit then
      match get i with
      | none => (acc, i)
      | some c =>
        if charIn matchSet c then collectRun get limit matchSet fuel (i + 1) (acc ++ [(i, c)])
        else if charIn BRIDGE_CHARS c then
          match findStopIdx get limit (limit + 1) (i + 1) with
          | some p =>
            match get p with
            | some c2 =>
              if charIn matchSet c2 then collectRun get limit matchSet fuel p acc
              else (acc, i)
            | none => (acc, i)
          | none => (acc, i)
        else (acc, i)
    else (acc, i)

/-- Outer scan loop of `line_detector.py`: walk the axis, starting runs at
matching characters or at bridge characters that are followed (through
bridges) by a matching character. -/
def scanRuns (get : Nat → Option Char) (limit : Nat) (matchSet : List Char) :
    Nat → Nat → List (List (Nat × Char))
  | 0, _ => []
  | fuel + 1, i =>
    if i < limit then
      match get i with
      | none => scanRuns get limit matchSet fuel (i + 1)
      | some c =>
        if charIn matchSet c then
          let rn := collectRun get limit matchSet (limit + 1) (i + 1) [(i, c)]
          rn.1 :: scanRuns get limit matchSet fuel rn.2
        else if charIn BRIDGE_CHARS c then
          match findStopIdx get limit (limit + 1) (i + 1) with
          | some p =>
            match get p with
            | some c2 =>
              if charIn matchSet c2 then
                let rn := collectRun get limit matchSet (limit + 1) (i + 1) []
                rn.1 :: scanRuns get limit matchSet fuel rn.2
              else scanRuns get limit matchSet fuel (i + 1)
            | none => scanRuns get limit matchSet fuel (i + 1)
          | none => scanRuns get limit matchSet fuel (i + 1)
        else scanRuns get limit matchSet fuel (i + 1)
    else []

/-- Embedding of `LineDetector._detect_horizontal_lines`. -/
def detectHorizontalLines (g : Grid) (minLen : Nat) : List Line :=
  ((List.range g.height).map (fun (r : Nat) =>
    let get := fun c : Nat => (g.getCell ⟨(r : Int), (c : Int)⟩).map (fun cl => cl.character)
    let runs := scanRuns get g.width HORIZONTAL_CHARS (g.width + 1) 0
    (runs.filter (fun run => minLen ≤ run.length)).map (fun run =>
      Line.mk (run.map (fun ic => Cell.mk ic.2 ⟨(r : Int), (ic.1 : Int)⟩)) .horizontal))).flatten

/-- Embedding of `LineDetector._detect_vertical_lines`. -/
def detectVerticalLines (g : Grid) (minLen : Nat) : List Line :=
  ((List.range g.width).map (fun (c : Nat) =>
    let get := fun r : Nat => (g.getCell ⟨(r : Int), (c : Int)⟩).map (fun cl => cl.character)
    let runs := scanRuns get g.height VERTICAL_CHARS (g.height + 1) 0
    (runs.filter (fun run => minLen ≤ run.length)).map (fun run =>
      Line.mk (run.map (fun ic => Cell.mk ic.2 ⟨(ic.1 : Int), (c : Int)⟩)) .vertical))).flatten

/-- Diagonal extension loop of `LineDetector._detect_diagonal_down_right`. -/
def extendDiagDown (g : Grid) (visited : List Pos) :
    Nat → Int → Int → List Cell → List Cell
  | 0, _, _, acc => acc
  | fuel + 1, r, c, acc =>
    if r < (g.height : Int) && c < (g.width : Int) then
      if visited.contains ⟨r, c⟩ then acc
      else
        match g.getCell ⟨r, c⟩ with
        | some cell =>
          if charIn DIAGONAL_DOWN cell.character then
            extendDiagDown g visited fuel (r + 1) (c + 1) (acc ++ [cell])
          else acc
        | none => acc
    else acc

/-- Diagonal extension loop of `LineDetector._detect_diagonal_up_right`. -/
def extendDiagUp (g : Grid) (visited : List Pos) :
    Nat → Int → Int → List Cell → List Cell
  | 0, _, _, acc => acc
  | fuel + 1, r, c, acc =>
    if 0 ≤ r && c < (g.width : Int) then
      if visited.contains ⟨r, c⟩ then acc
      else
        match g.getCell ⟨r, c⟩ with
        | some cell =>
          if charIn DIAGONAL_UP cell.character then
            extendDiagUp g visited fuel (r - 1) (c + 1) (acc ++ [cell])
          else acc
        | none => acc
    else acc

/-- Row-major list of all grid coordinates, the embedding of the nested
`for start_row ... for start_col` loops. -/
def gridIndices (g : Grid) : List (Nat × Nat) :=
  ((List.range g.height).map (fun r => (List.range g.width).map (fun c => (r, c)))).flatten

/-- Embedding of `LineDetector._detect_diagonal_down_right`. -/
def detectDiagonalDownLines (g : Grid) (minLen : Nat) : List Line :=
  ((gridIndices g).foldl (fun (st : List Line × List Pos) rc =>
    let p : Pos := ⟨(rc.1 : Int), (rc.2 : Int)⟩
    if st.2.contains p then st
    else
      match g.getCell p with
      | none => st
      | some cell =>
        if charIn DIAGONAL_DOWN cell.character then
          let cells := extendDiagDown g st.2 (g.height + g.width + 1) (p.row + 1) (p.col + 1) [cell]
          if minLen ≤ cells.length then
            (st.1 ++ [Line.mk cells .diagonalDown], st.2 ++ cells.map (fun cl => cl.position))
          else st
        else st) ([], [])).1

/-- Embedding of `LineDetector._detect_diagonal_up_right`. -/
def detectDiagonalUpLines (g : Grid) (minLen : Nat) : List Line :=
  ((gridIndices g).foldl (fun (st : List Line × List Pos) rc =>
    let p : Pos := ⟨(rc.1 : Int), (rc.2 : Int)⟩
    if st.2.contains p then st
    else
      match g.getCell p with
      | none => st
      | some cell =>
        if charIn DIAGONAL_UP cell.character then
          let cells := extendDiagUp g st.2 (g.height + g.width + 1) (p.row - 1) (p.col + 1) [cell]
          if minLen ≤ cells.length then
            (st.1 ++ [Line.mk cells .diagonalUp], st.2 ++ cells.map (fun cl => cl.position))
          else st
        else st) ([], [])).1

/-- Embedding of `LineDetector.detect_lines`. -/
def detectLines (g : Grid) (minLen : Nat) (detectDiagonals : Bool) : List Line :=
  if g.width = 0 || g.height = 0 then []
  else
    detectHorizontalLines g minLen ++ detectVerticalLines g minLen ++
      (if detectDiagonals then
        detectDiagonalDownLines g minLen ++ detectDiagonalUpLines g minLen
      else [])

example :
    detectLines (gridOfString "+--+") 2 false =
      [Line.mk [Cell.mk '-' ⟨0, 1⟩, Cell.mk '-' ⟨0, 2⟩] .horizontal] := by decide

example : detectLines (gridOfString "++\n++") 1 false = [] := by decide

example :
    detectLines (gridOfString "|x\n|y\n|z") 2 false =
      [Line.mk [Cell.mk '|' ⟨0, 0⟩, Cell.mk '|' ⟨1, 0⟩, Cell.mk '|' ⟨2, 0⟩] .vertical] := by
  decide

/-! Parallel line finder, from `detection/parallel_line_finder.py`. -/

/-- Parallel group from `detection/protocols.py::ParallelGroup`. -/
structure ParallelGroup where
  lines : List Line
  direction : Direction
  referenceLine : Option Line
  expectedPosition : Option Int
deriving DecidableEq, Repr

/-- Stable insertion of an element into a key-sorted list, placing it before
the first strictly larger key; folding it from the right reproduces the
stable ascending order of Python `sorted(..., key=...)`. -/
def insertByKey {α : Type} (f : α → Int) (x : α) : List α → List α
  | [] => [x]
  | y :: ys => if f x ≤ f y then x :: y :: ys else y :: insertByKey f x ys

/-- Stable ascending sort by an integer key, the embedding of Python
`sorted(xs, key=f)`. -/
def sortByKey {α : Type} (f : α → Int) (l : List α) : List α :=
  l.foldr (insertByKey f) []

/-- Dominant coordinate used to sort and group lines of one direction
(`get_position` in `_group_lines_by_position`). -/
def groupKeyPos (dir : Direction) (l : Line) : Option Int :=
  if dir = .horizontal then l.dominantRow else l.dominantCol

/-- Embedding of `ParallelLineFinder._has_sufficient_overlap`.  The Python
comparison `overlap / min_len >= self._min_overlap_ratio` divides two small
integers; it is carried here exactly as `overlap * den >= num * min_len`
with the ratio `num / den` kept in lowest integral terms. -/
def hasSufficientOverlap (num den : Nat) (line1 line2 : Line) : Bool :=
  let pair1 :=
    if line1.direction = .horizontal then
      ((line1.startPosition.map Pos.col).getD 0, (line1.endPosition.map Pos.col).getD 0)
    else
      ((line1.startPosition.map Pos.row).getD 0, (line1.endPosition.map Pos.row).getD 0)
  let pair2 :=
    if line1.direction = .horizontal then
      ((line2.startPosition.map Pos.col).getD 0, (line2.endPosition.map Pos.col).getD 0)
    else
      ((line2.startPosition.map Pos.row).getD 0, (line2.endPosition.map Pos.row).getD 0)
  let overlap : Int := max 0 (min pair1.2 pair2.2 - max pair1.1 pair2.1 + 1)
  let len1 : Int := pair1.2 - pair1.1 + 1
  let len2 : Int := pair2.2 - pair2.1 + 1
  let minLen : Int := min len1 len2
  if minLen = 0 then false
  else (num : Int) * minLen ≤ (den : Int) * overlap

/-- Embedding of `ParallelLineFinder._create_group`. -/
def createGroup (lines : List Line) (dir : Direction) : ParallelGroup :=
  match lines with
  | [] => ⟨[], dir, none, none⟩
  | l :: ls =>
    let reference := maxByFirst (fun x => (x.lengthCells : Int)) l ls
    let expected :=
      if dir = .horizontal then reference.dominantRow else reference.dominantCol
    ⟨lines, dir, some reference, expected⟩

/-- Greedy grouping loop of `ParallelLineFinder._group_lines_by_position`. -/
def groupLoop (tol : Nat) (num den : Nat) (dir : Direction) :
    List Line → List Line → List ParallelGroup → List ParallelGroup
  | [], current, groups => groups ++ [createGroup current.reverse dir]
  | line :: rest, current, groups =>
    let lastPos := current.head?.bind (groupKeyPos dir)
    let curPos := groupKeyPos dir line
    match lastPos, curPos with
    | some lp, some cp =>
      if (cp - lp).natAbs ≤ tol && current.head?.elim false (fun lastLine => hasSufficientOverlap num den lastLine line) then
        groupLoop tol num den dir rest (line :: current) groups
      else
        groupLoop tol num den dir rest [line] (groups ++ [createGroup current.reverse dir])
    | _, _ =>
      groupLoop tol num den dir rest [line] (groups ++ [createGroup current.reverse dir])

/-- Embedding of `ParallelLineFinder._group_lines_by_position`. -/
def groupLinesByPosition (tol num den : Nat) (lines : List Line) (dir : Direction) :
    List ParallelGroup :=
  let sortedLines :=
    sortByKey (fun l => (groupKeyPos dir l).getD 0)
      (lines.filter (fun l => (groupKeyPos dir l).isSome))
  match sortedLines with
  | [] => []
  | first :: rest => groupLoop tol num den dir rest [first] []

/-- Embedding of `ParallelLineFinder.find_parallel_groups`. -/
def findParallelGroups (tol num den : Nat) (lines : List Line) : List ParallelGroup :=
  if lines.isEmpty then []
  else
    let horizontal := lines.filter (fun l => l.direction = .horizontal)
    let vertical := lines.filter (fun l => l.direction = .vertical)
    groupLinesByPosition tol num den horizontal .horizontal ++
      groupLinesByPosition tol num den vertical .vertical

/-! Structure classifier, from `detection/structure_classifier.py`. -/

/-- Structure types from `structure_classifier.py::StructureType`. -/
inductive StructureType where
  | box
  | tree
  | graph
  | unknownStructure
deriving DecidableEq, Repr

/-- Count of consecutive horizontal characters in the branch window, the
embedding of the `for check_col in range(pos.col + 1, min(pos.col + 4,
grid.width))` loop with its early `break`. -/
def branchHorizontalCount (g : Grid) (row : Int) : List Nat → Nat
  | [] => 0
  | c :: cs =>
    match g.getCell ⟨row, (c : Int)⟩ with
    | some cell =>
      if charIn HORIZONTAL_CHARS cell.character then 1 + branchHorizontalCount g row cs
      else 0
    | none => 0

/-- Column window scanned for horizontal branch characters. -/
def branchWindow (g : Grid) (col : Int) : List Nat :=
  (List.range' (col.toNat + 1) (min (col.toNat + 4) g.width - (col.toNat + 1))).map id

/-- Embedding of `StructureClassifier._is_tree_branch`. -/
def isTreeBranch (g : Grid) (pos : Pos) : Bool :=
  match g.getCell pos with
  | none => false
  | some cell =>
    if cell.character ≠ '+' then false
    else
      let horizontalCount := branchHorizontalCount g pos.row (branchWindow g pos.col)
      if horizontalCount < 2 then false
      else if pos.row > 0 then
        match g.getCell ⟨pos.row - 1, pos.col⟩ with
        | some above => charIn (VERTICAL_CHARS ++ ['|', '+']) above.character
        | none => false
      else false

/-- Embedding of `StructureClassifier.has_tree_patterns` with the engine's
threshold; the branch count scans columns `0 .. width - 3`. -/
def treeBranchCount (g : Grid) : Nat :=
  ((List.range g.height).map (fun r =>
    ((List.range (g.width - 2)).filter (fun c =>
      isTreeBranch g ⟨(r : Int), (c : Int)⟩)).length)).sum

/-- Corner set local to `StructureClassifier.has_box_patterns` (note: it
lacks the heavy Unicode corners of `CORNER_CHARS`). -/
def boxPatternCorners : List Char :=
  ['+', '.', apostropheChar, backtickChar,
   Char.ofNat 0x250C, Char.ofNat 0x2510, Char.ofNat 0x2514, Char.ofNat 0x2518,
   Char.ofNat 0x2554, Char.ofNat 0x2557, Char.ofNat 0x255A, Char.ofNat 0x255D]

/-- Embedding of `StructureClassifier.has_box_patterns`. -/
def hasBoxPatterns (g : Grid) : Bool :=
  4 ≤ ((gridIndices g).filter (fun rc =>
    match g.getCell ⟨(rc.1 : Int), (rc.2 : Int)⟩ with
    | some cell => charIn boxPatternCorners cell.character
    | none => false)).length

/-- Embedding of `StructureClassifier.has_tree_patterns` (threshold 2, as
instantiated by the correction engine). -/
def hasTreePatterns (g : Grid) (threshold : Nat) : Bool :=
  threshold ≤ treeBranchCount g

/-- Embedding of `StructureClassifier.classify`. -/
def classifyStructure (g : Grid) (threshold : Nat) : StructureType :=
  if hasTreePatterns g threshold then .tree
  else if hasBoxPatterns g then .box
  else .unknownStructure

example : isTreeBranch (gridOfString " |\n +--") ⟨1, 1⟩ = true := by decide
example : isTreeBranch (gridOfString "+--\n|") ⟨0, 0⟩ = false := by decide
example : classifyStructure (gridOfString "|\n+--\n|\n+--") 2 = .tree := by decide

/-! Box detector, from `detection/box_detector.py`. -/

/-- Box structure from `box_detector.py::BoxStructure`. -/
structure BoxStructure where
  topLine : Line
  bottomLine : Line
  leftLine : Line
  rightLine : Line
  heightBox : Int
  widthBox : Int
deriving DecidableEq, Repr

/-- Embedding of `BoxDetector._find_corners`. -/
def findCorners (g : Grid) : List Pos :=
  ((gridIndices g).filterMap (fun rc =>
    match g.getCell ⟨(rc.1 : Int), (rc.2 : Int)⟩ with
    | some cell =>
      if charIn CORNER_CHARS cell.character then some cell.position else none
    | none => none))

/-- Embedding of `BoxDetector._trace_horizontal`. -/
def traceHorizontal (g : Grid) (start : Pos) : Nat → Int → Option Pos
  | 0, _ => none
  | fuel + 1, col =>
    if col < (g.width : Int) then
      match g.getCell ⟨start.row, col⟩ with
      | none => none
      | some cell =>
        if charIn HORIZONTAL_CHARS cell.character then
          traceHorizontal g start fuel (col + 1)
        else if charIn CORNER_CHARS cell.character then some ⟨start.row, col⟩
        else none
    else none

/-- Embedding of `BoxDetector._trace_vertical`. -/
def traceVertical (g : Grid) (start : Pos) : Nat → Int → Option Pos
  | 0, _ => none
  | fuel + 1, row =>
    if row < (g.height : Int) then
      match g.getCell ⟨row, start.col⟩ with
      | none => none
      | some cell =>
        if charIn VERTICAL_CHARS cell.character then
          traceVertical g start fuel (row + 1)
        else if charIn CORNER_CHARS cell.character then some ⟨row, start.col⟩
        else none
    else none

/-- Column range of an inclusive horizontal edge, the embedding of
`range(left.col, right.col + 1)`. -/
def intRangeIncl (lo hi : Int) : List Int :=
  (List.range (hi + 1 - lo).toNat).map (fun i => lo + (i : Int))

/-- Embedding of `BoxDetector._build_horizontal_line`. -/
def buildHorizontalLine (g : Grid) (left right : Pos) : Option Line :=
  let cells := (intRangeIncl left.col right.col).filterMap (fun col =>
    match g.getCell ⟨left.row, col⟩ with
    | some cell =>
      if charIn (HORIZONTAL_CHARS ++ CORNER_CHARS) cell.character then some cell else none
    | none => none)
  if cells.length < 2 then none else some ⟨cells, .horizontal⟩

/-- Embedding of `BoxDetector._build_vertical_line`. -/
def buildVerticalLine (g : Grid) (top bottom : Pos) : Option Line :=
  let cells := (intRangeIncl top.row bottom.row).filterMap (fun row =>
    match g.getCell ⟨row, top.col⟩ with
    | some cell =>
      if charIn (VERTICAL_CHARS ++ CORNER_CHARS) cell.character then some cell else none
    | none => none)
  if cells.length < 2 then none else some ⟨cells, .vertical⟩

/-- Embedding of `BoxDetector._try_form_box` with the engine's minimum box
size of 2. -/
def tryFormBox (g : Grid) (minSize : Nat) (topLeft : Pos) : Option BoxStructure :=
  match traceHorizontal g topLeft (g.width + 1) (topLeft.col + 1) with
  | none => none
  | some topRight =>
    let width := topRight.col - topLeft.col + 1
    if width < (minSize : Int) then none
    else
      match traceVertical g topLeft (g.height + 1) (topLeft.row + 1) with
      | none => none
      | some bottomLeft =>
        let height := bottomLeft.row - topLeft.row + 1
        if height < (minSize : Int) then none
        else
          let bottomRight : Pos := ⟨bottomLeft.row, topRight.col⟩
          match g.getCell bottomRight with
          | none => none
          | some cellBr =>
            if ¬ charIn CORNER_CHARS cellBr.character then none
            else
              match buildHorizontalLine g topLeft topRight,
                    buildHorizontalLine g bottomLeft bottomRight,
                    buildVerticalLine g topLeft bottomLeft,
                    buildVerticalLine g topRight bottomRight with
              | some top, some bottom, some left, some right =>
                some ⟨top, bottom, left, right, height, width⟩
              | _, _, _, _ => none

/-- Canonical duplicate key of a detected box. -/
def boxKey (b : BoxStructure) : Option Int × Option Int × Int × Int :=
  (b.topLine.dominantRow, b.leftLine.dominantCol, b.heightBox, b.widthBox)

/-- Embedding of `BoxDetector.detect_boxes`. -/
def detectBoxes (g : Grid) (minSize : Nat) : List BoxStructure :=
  if g.width = 0 || g.height = 0 then []
  else
    ((findCorners g).foldl (fun (st : List BoxStructure × List (Option Int × Option Int × Int × Int)) topLeft =>
      match tryFormBox g minSize topLeft with
      | none => st
      | some box =>
        if st.2.contains (boxKey box) then st
        else (st.1 ++ [box], st.2 ++ [boxKey box])) ([], [])).1

/-! Correction layer value objects, from `correction/protocols.py`.  The
`confidence` field of `ShiftCorrection` is a constant `1.0` at every
construction site and is read nowhere, so it is not carried by the
embedding. -/

/-- Shift correction from `correction/protocols.py::ShiftCorrection`. -/
structure ShiftCorrection where
  line : Line
  rowOffset : Int
  colOffset : Int
deriving DecidableEq, Repr

/-- Alignment result from `correction/protocols.py::AlignmentResult`. -/
structure AlignmentResult where
  group : ParallelGroup
  corrections : List ShiftCorrection
  referencePosition : Option Int
deriving DecidableEq, Repr

/-- Correction result from `correction/protocols.py::CorrectionResult`. -/
structure CorrectionResult where
  originalGrid : Grid
  correctedGrid : Grid
  correctionsApplied : List ShiftCorrection
  groupsFound : List ParallelGroup
deriving DecidableEq, Repr

/-- Embedding of `BoxAlignmentCalculator._align_box_edges`. -/
def alignBoxEdges (box : BoxStructure) : List ShiftCorrection :=
  match box.leftLine.dominantCol, box.topLine.dominantRow with
  | some refCol, some refRow =>
    let targetRightCol := refCol + box.widthBox - 1
    let rightCorrections :=
      match box.rightLine.dominantCol with
      | some rightCol =>
        if rightCol ≠ targetRightCol then
          [ShiftCorrection.mk box.rightLine 0 (targetRightCol - rightCol)]
        else []
      | none => []
    let targetBottomRow := refRow + box.heightBox - 1
    let bottomCorrections :=
      match box.bottomLine.dominantRow with
      | some bottomRow =>
        if bottomRow ≠ targetBottomRow then
          [ShiftCorrection.mk box.bottomLine (targetBottomRow - bottomRow) 0]
        else []
      | none => []
    rightCorrections ++ bottomCorrections
  | _, _ => []

/-- Embedding of `BoxAlignmentCalculator.calculate_corrections`. -/
def boxAlignmentCorrections (boxes : List BoxStructure) : List ShiftCorrection :=
  (boxes.map alignBoxEdges).flatten

example : (detectBoxes (gridOfString "+-+\n| |\n+-+") 2).length = 1 := by decide
example :
    boxAlignmentCorrections (detectBoxes (gridOfString "+-+\n| |\n+-+") 2) = [] := by decide

/-! Alignment calculator, from `correction/alignment_calculator.py`. -/

/-- Embedding of `AlignmentCalculator._calculate_line_correction`. -/
def calculateLineCorrection (line : Line) (expected : Option Int) (dir : Direction) :
    Option ShiftCorrection :=
  match expected with
  | none => none
  | some exp =>
    if dir = .horizontal then
      match line.dominantRow with
      | none => none
      | some cur => if exp - cur = 0 then none else some ⟨line, exp - cur, 0⟩
    else
      match line.dominantCol with
      | none => none
      | some cur => if exp - cur = 0 then none else some ⟨line, 0, exp - cur⟩

/-- Embedding of `AlignmentCalculator.calculate_alignment`. -/
def calculateAlignment (group : ParallelGroup) : AlignmentResult :=
  match group.lines with
  | [] => ⟨group, [], none⟩
  | first :: _ =>
    let reference := group.referenceLine.getD first
    let expected :=
      match group.expectedPosition with
      | some e => some e
      | none =>
        if group.direction = .horizontal then reference.dominantRow
        else reference.dominantCol
    let corrections :=
      (group.lines.filter (fun l => l ≠ reference)).filterMap
        (fun l => calculateLineCorrection l expected group.direction)
    ⟨group, corrections, expected⟩

/-! Stray character finder, from `correction/stray_character_finder.py`. -/

/-- Embedding of `StrayCharacterFinder._row_has_text`. -/
def rowHasText (g : Grid) (row : Int) : Bool :=
  (List.range g.width).any (fun c =>
    match g.getCell ⟨row, (c : Int)⟩ with
    | none => false
    | some cell => cell.character ≠ ' ' && ¬ charIn VERTICAL_CHARS cell.character)

/-- Embedding of `StrayCharacterFinder._col_has_text`. -/
def colHasText (g : Grid) (col : Int) : Bool :=
  (List.range g.height).any (fun r =>
    match g.getCell ⟨(r : Int), col⟩ with
    | none => false
    | some cell => cell.character ≠ ' ' && ¬ charIn HORIZONTAL_CHARS cell.character)

/-- Embedding of `StrayCharacterFinder._has_adjacent_structural`. -/
def hasAdjacentStructural (g : Grid) (row col : Int) : Bool :=
  [row - 1, row + 1].any (fun adjRow =>
    match g.getCell ⟨adjRow, col⟩ with
    | none => false
    | some cell => charIn (VERTICAL_CHARS ++ CORNER_CHARS) cell.character)

/-- Embedding of `StrayCharacterFinder._is_right_edge`. -/
def isRightEdge (g : Grid) (row col : Int) : Bool :=
  (List.range g.width).all (fun c =>
    if col + 1 ≤ (c : Int) then
      match g.getCell ⟨row, (c : Int)⟩ with
      | none => true
      | some cell => cell.character = ' '
    else true)

/-- Embedding of `StrayCharacterFinder._find_vertical_correction`. -/
def findVerticalCorrection (tol : Nat) (stray : Cell) (verticalLines : List Line)
    (g : Grid) : Option ShiftCorrection :=
  let isEdge := isRightEdge g stray.position.row stray.position.col
  if rowHasText g stray.position.row && ¬ isEdge then none
  else
    let best := verticalLines.foldl (fun (best : Option (Line × Int)) line =>
      match line.dominantCol with
      | none => best
      | some lineCol =>
        let distance : Int := |stray.position.col - lineCol|
        if distance = 0 || distance > (tol : Int) then best
        else
          match line.startPosition, line.endPosition with
          | some sp, some ep =>
            let inRange :=
              sp.row - (tol : Int) ≤ stray.position.row &&
                stray.position.row ≤ ep.row + (tol : Int)
            if inRange || (isEdge && hasAdjacentStructural g stray.position.row lineCol) then
              match best with
              | none => some (line, distance)
              | some bd => if distance < bd.2 then some (line, distance) else best
            else best
          | _, _ => best) none
    match best with
    | none => none
    | some bd =>
      match bd.1.dominantCol with
      | none => none
      | some targetCol =>
        match g.getCell ⟨stray.position.row, targetCol⟩ with
        | none => none
        | some targetCell =>
          if targetCell.character ≠ ' ' then none
          else some ⟨Line.mk [stray] .vertical, 0, targetCol - stray.position.col⟩

/-- Embedding of `StrayCharacterFinder._find_horizontal_correction`. -/
def findHorizontalCorrection (tol : Nat) (stray : Cell) (horizontalLines : List Line)
    (g : Grid) : Option ShiftCorrection :=
  if colHasText g stray.position.col then none
  else
    let best := horizontalLines.foldl (fun (best : Option (Line × Int)) line =>
      match line.dominantRow with
      | none => best
      | some lineRow =>
        let distance : Int := |stray.position.row - lineRow|
        if distance = 0 || distance > (tol : Int) then best
        else
          match line.startPosition, line.endPosition with
          | some sp, some ep =>
            if stray.position.col < sp.col - (tol : Int) ||
                stray.position.col > ep.col + (tol : Int) then best
            else
              match best with
              | none => some (line, distance)
              | some bd => if distance < bd.2 then some (line, distance) else best
          | _, _ => best) none
    match best with
    | none => none
    | some bd =>
      match bd.1.dominantRow with
      | none => none
      | some targetRow =>
        match g.getCell ⟨targetRow, stray.position.col⟩ with
        | none => none
        | some targetCell =>
          if targetCell.character ≠ ' ' then none
          else some ⟨Line.mk [stray] .horizontal, targetRow - stray.position.row, 0⟩

/-- Embedding of `StrayCharacterFinder.find_stray_corrections`. -/
def findStrayCorrections (g : Grid) (tol : Nat) (detectedLines : List Line) :
    List ShiftCorrection :=
  let covered := (detectedLines.map (fun l => l.cells.map (fun c => c.position))).flatten
  let verticalLines := detectedLines.filter (fun l => l.direction = .vertical)
  let horizontalLines := detectedLines.filter (fun l => l.direction = .horizontal)
  (gridIndices g).filterMap (fun rc =>
    let pos : Pos := ⟨(rc.1 : Int), (rc.2 : Int)⟩
    if covered.contains pos then none
    else
      match g.getCell pos with
      | none => none
      | some cell =>
        if charIn VERTICAL_CHARS cell.character then
          findVerticalCorrection tol cell verticalLines g
        else if charIn HORIZONTAL_CHARS cell.character then
          findHorizontalCorrection tol cell horizontalLines g
        else none)

/-! Row shift corrector, from `correction/row_shift_corrector.py`. -/

/-- Loop body of the structural-position scan of
`RowShiftCorrector.find_row_shift_corrections` (step 1).  Note the source
tests membership in `VERTICAL_CHARS | CORNER_CHARS`. -/
def structEntry (g : Grid) (rn cn : Nat) : Option (Int × Int) :=
  match g.getCell ⟨(rn : Int), (cn : Int)⟩ with
  | none => none
  | some cell =>
    if charIn (VERTICAL_CHARS ++ CORNER_CHARS) cell.character then
      some ((rn : Int), (cn : Int))
    else none

/-- Embedding of the structural-position set built by
`RowShiftCorrector.find_row_shift_corrections` (step 1). -/
def structuralPositions (g : Grid) : List (Int × Int) :=
  (gridIndices g).filterMap (fun rc => structEntry g rc.1 rc.2)

/-- Column histogram of structural characters (`col_counts`). -/
def colCounts (g : Grid) (col : Int) : Nat :=
  (structuralPositions g).countP (fun rc => rc.2 = col)

/-- Embedding of `RowShiftCorrector._best_offset`. -/
def bestOffset (g : Grid) (tol minCons : Nat) (row col : Int) : Int :=
  let structPos := structuralPositions g
  let myCount := colCounts g col
  let candidates := ((List.range tol).map (fun d0 =>
    [col - ((d0 : Int) + 1), col + ((d0 : Int) + 1)])).flatten
  (candidates.foldl (fun (best : Int × Nat) candidate =>
    let candidateCount := colCounts g candidate
    if best.2 < candidateCount && minCons ≤ candidateCount then
      let hasAdjacent :=
        (decide (0 < row) && structPos.contains (row - 1, candidate)) ||
          (decide (row < (g.height : Int) - 1) && structPos.contains (row + 1, candidate))
      if hasAdjacent then (col - candidate, candidateCount) else best
    else best) (0, myCount)).1

/-- Structural columns of one row, as collected by the first loop of
`RowShiftCorrector._check_row`. -/
def rowStructuralCols (g : Grid) (row : Int) : List Int :=
  (List.range g.width).filterMap (fun c =>
    if (structuralPositions g).contains (row, (c : Int)) then some (c : Int) else none)

/-- Non-space cells of one row, as collected by the correction-building
loop of `RowShiftCorrector._check_row`. -/
def rowNonSpaceCells (g : Grid) (row : Int) : List Cell :=
  (List.range g.width).filterMap (fun c =>
    match g.getCell ⟨row, (c : Int)⟩ with
    | none => none
    | some cell => if cell.character ≠ ' ' then some cell else none)

/-- Embedding of `RowShiftCorrector._check_row`. -/
def checkRow (g : Grid) (tol minCons : Nat) (row : Int) : Option ShiftCorrection :=
  let rowStructural := rowStructuralCols g row
  match rowStructural with
  | [] => none
  | _ =>
    let offsets := rowStructural.map (fun col => bestOffset g tol minCons row col)
    match offsets with
    | [] => none
    | d :: rest =>
      if ¬ rest.all (fun o => o = d) then none
      else if d = 0 then none
      else
        let rowCells := rowNonSpaceCells g row
        match rowCells with
        | [] => none
        | _ =>
          if rowCells.all (fun cell =>
              0 ≤ cell.position.col - d && cell.position.col - d < (g.width : Int)) then
            some ⟨Line.mk rowCells .horizontal, 0, -d⟩
          else none

/-- Embedding of `RowShiftCorrector.find_row_shift_corrections`. -/
def findRowShiftCorrections (g : Grid) (tol minCons : Nat) : List ShiftCorrection :=
  if g.width = 0 || g.height = 0 then []
  else if (structuralPositions g).isEmpty then []
  else (List.range g.height).filterMap (fun r => checkRow g tol minCons (r : Int))

/-! Shift corrector, from `correction/shift_corrector.py`. -/

/-- Translated position of a cell under a correction. -/
def translatePos (corr : ShiftCorrection) (p : Pos) : Pos :=
  ⟨p.row + corr.rowOffset, p.col + corr.colOffset⟩

/-- Embedding of `ShiftCorrector.apply_correction`.  The validation loop of
the source raises `ValueError` at the first translated position that leaves
the grid; the clear and write loops can raise `IndexError` through
`set_cell`. -/
def applyCorrection (corr : ShiftCorrection) (grid : Grid) : Except PyErr Grid :=
  let result := grid.copy
  if corr.rowOffset = 0 && corr.colOffset = 0 then .ok result
  else if ¬ corr.line.cells.all (fun cell =>
      result.isValidPos (translatePos corr cell.position)) then
    .error .valueError
  else do
    let cleared ← corr.line.cells.foldlM (fun g cell => Grid.clearCellE g cell.position) result
    corr.line.cells.foldlM
      (fun g cell => Grid.setCellE g (translatePos corr cell.position) cell.character) cleared

/-! Correction engine, from `correction/correction_engine.py`.  The
`correct` and `analyze` entry points of the source run one identical
detection-and-computation pipeline (the statements are duplicated verbatim
in the source); the embedding shares it as `enginePipeline`. -/

/-- Engine tunables.  The `preserveTrees` flag embeds
`Settings.preserve_trees`: the engine and the test suite read it (the tests
fix its default to `True`) while the snapshot of `config/settings.py` omits
the field; it is modelled from the spec (§6) as a plain boolean tunable.
The remaining fields are the constructor parameters of `CorrectionEngine`
with their defaults; the overlap ratio is the exact fraction
`overlapNum / overlapDen`. -/
structure EngineParams where
  tolerance : Nat := 1
  minLineLength : Nat := 2
  overlapNum : Nat := 1
  overlapDen : Nat := 2
  preserveTrees : Bool := true
deriving DecidableEq, Repr

/-- Embedding of `CorrectionEngine._group_contains_tree_branch`. -/
def groupContainsTreeBranch (group : ParallelGroup) (g : Grid) : Bool :=
  group.lines.any (fun line =>
    line.cells.any (fun cell => isTreeBranch g cell.position))

/-- Embedding of `CorrectionEngine._filter_tree_groups`. -/
def filterTreeGroups (groups : List ParallelGroup) (g : Grid) : List ParallelGroup :=
  groups.filter (fun group => ¬ groupContainsTreeBranch group g)

/-- Detection-and-computation pipeline shared by `correct` and `analyze`:
returns the concatenated correction list (alignment, box, stray, row-shift,
in source order) and the parallel groups found. -/
def enginePipeline (P : EngineParams) (g : Grid) :
    List ShiftCorrection × List ParallelGroup :=
  let lines := detectLines g P.minLineLength false
  if lines.isEmpty then ([], [])
  else
    let groups0 := findParallelGroups P.tolerance P.overlapNum P.overlapDen lines
    let structureType := classifyStructure g 2
    let groups :=
      if structureType = .tree && P.preserveTrees then filterTreeGroups groups0 g
      else groups0
    let alignCorrections :=
      (groups.map (fun group => (calculateAlignment group).corrections)).flatten
    let boxCorrections := boxAlignmentCorrections (detectBoxes g 2)
    let strayCorrections := findStrayCorrections g P.tolerance lines
    let rowCorrections := findRowShiftCorrections g P.tolerance 2
    (alignCorrections ++ boxCorrections ++ strayCorrections ++ rowCorrections, groups)

/-- Application loop of `CorrectionEngine.correct`: apply corrections in
order to one working grid, skipping those that raise `ValueError` and
propagating any other exception. -/
def applyLoop : List ShiftCorrection → Grid → Except PyErr (Grid × List ShiftCorrection)
  | [], g => .ok (g, [])
  | c :: cs, g =>
    match applyCorrection c g with
    | .ok g2 => (applyLoop cs g2).map (fun r => (r.1, c :: r.2))
    | .error .valueError => applyLoop cs g
    | .error e => .error e

/-- Embedding of `CorrectionEngine.correct`. -/
def correctE (P : EngineParams) (g : Grid) : Except PyErr CorrectionResult :=
  let pipe := enginePipeline P g
  (applyLoop pipe.1 g.copy).map (fun r => ⟨g, r.1, r.2, pipe.2⟩)

/-- Embedding of `CorrectionEngine.analyze`. -/
def analyzeE (P : EngineParams) (g : Grid) : CorrectionResult :=
  let pipe := enginePipeline P g
  ⟨g, g.copy, pipe.1, pipe.2⟩

/-! Specification-side helper definitions used only in theorem statements. -/

/-- Well-formedness invariant every Python-reachable grid satisfies: the
data matrix has exactly `height` rows of exactly `width` characters. -/
def Grid.Wellformed (g : Grid) : Prop :=
  g.data.length = g.height ∧ ∀ row ∈ g.data, row.length = g.width

/-- Character written last at a position by a correction, if any (the write
loop runs in cell order, so a later cell overwrites an earlier one). -/
def lastWriteAt (corr : ShiftCorrection) (p : Pos) : Option Char :=
  ((corr.line.cells.filter (fun cell => translatePos corr cell.position = p)).map
    (fun cell => cell.character)).getLast?

/-- Original positions of a correction's cells. -/
def originalPositions (corr : ShiftCorrection) : List Pos :=
  corr.line.cells.map (fun cell => cell.position)

/-- Pure mirror of the clear-then-write mutation performed by a successful
`apply_correction`. -/
def pureApply (corr : ShiftCorrection) (g : Grid) : Grid :=
  let cleared := corr.line.cells.foldl (fun acc cell => acc.setChar cell.position ' ') g
  corr.line.cells.foldl
    (fun acc cell => acc.setChar (translatePos corr cell.position) cell.character) cleared

/-- Decidable equality for embedded Python results. -/
instance exceptDecidableEq {E A : Type} [DecidableEq E] [DecidableEq A] :
    DecidableEq (Except E A) := fun a b =>
  match a, b with
  | .ok x, .ok y =>
    if h : x = y then .isTrue (by rw [h]) else .isFalse (by simp [h])
  | .error x, .error y =>
    if h : x = y then .isTrue (by rw [h]) else .isFalse (by simp [h])
  | .ok _, .error _ => .isFalse (by simp)
  | .error _, .ok _ => .isFalse (by simp)

/-- Per-correction grid step of the application loop: the identity for the
zero shift (the early return of `apply_correction`), otherwise the pure
clear-and-write mirror. -/
def applyStep (c : ShiftCorrection) (g : Grid) : Grid :=
  if c.rowOffset = 0 && c.colOffset = 0 then g else pureApply c g

/-- A correction is well placed on a grid when all its original cell
positions and all its translated cell positions lie inside the grid. -/
def WellPlaced (g : Grid) (corr : ShiftCorrection) : Prop :=
  (∀ cell ∈ corr.line.cells, g.isValidPos cell.position = true) ∧
    (∀ cell ∈ corr.line.cells, g.isValidPos (translatePos corr cell.position) = true)

/-- Invariant satisfied by every parallel group built over a pool of lines:
the group carries the grouping direction, draws its lines from the pool,
and its reference line, when present, is one of its lines whose dominant
coordinate is the group's expected position. -/
def GroupOK (pool : List Line) (dir : Direction) (gp : ParallelGroup) : Prop :=
  gp.direction = dir ∧ (∀ l ∈ gp.lines, l ∈ pool) ∧
    ((gp.referenceLine = none ∧ gp.expectedPosition = none) ∨
      (∃ ref, gp.referenceLine = some ref ∧ ref ∈ gp.lines ∧
        gp.expectedPosition =
          (if dir = Direction.horizontal then ref.dominantRow else ref.dominantCol)))

/-! Helper lemmas shared by the claim theorems. -/

/-- Membership form of `charIn`. -/
theorem charIn_iff (s : List Char) (c : Char) : charIn s c = true ↔ c ∈ s := by
  simp [charIn]

/-- Claim C5, counterexample.  The claim asserts that the classifier's sets
cover the Unicode box-drawing glyphs and the diagonal slashes, so that
U+2500 classifies as horizontal and the slash as diagonal-up; on the code
(`domain/character.py::_classify_character`, which consults ASCII-only sets
and has no diagonal checks at all) both classify as UNKNOWN. -/
theorem classify_unicode_and_slash_unknown :
    classifyCharacter (Char.ofNat 0x2500) = CharacterClass.unknown ∧
      classifyCharacter (Char.ofNat 0x2500) ≠ CharacterClass.horizontal ∧
      classifyCharacter '/' = CharacterClass.unknown ∧
      classifyCharacter '/' ≠ CharacterClass.diagonalUp := by
  refine ⟨by decide, by decide, by decide, by decide⟩

/-- Claim C5, amended.  For every single-code-point character, `classify`
is deterministic and total, checking the fixed ASCII sets in the order
horizontal, vertical, corner, junction, arrow, whitespace, then
alphanumeric TEXT, else UNKNOWN; no diagonal-down or diagonal-up check
exists, and the Unicode box-drawing glyphs are in none of the sets.  The
characterization below pins each produced class to exact set membership
(`v` and `V` are alphanumeric but classify as arrows because the arrow set
is checked before the alphanumeric fallback). -/
theorem classify_character_characterization (c : Char) :
    (classifyCharacter c = CharacterClass.horizontal ↔ (c = '-' ∨ c = '=' ∨ c = '_')) ∧
      (classifyCharacter c = CharacterClass.vertical ↔ (c = '|' ∨ c = '!')) ∧
      (classifyCharacter c = CharacterClass.corner ↔
        (c = '+' ∨ c = '.' ∨ c = apostropheChar ∨ c = backtickChar)) ∧
      (classifyCharacter c = CharacterClass.junction ↔ c = '*') ∧
      (classifyCharacter c = CharacterClass.arrow ↔
        (c = '<' ∨ c = '>' ∨ c = '^' ∨ c = 'v' ∨ c = 'V')) ∧
      (classifyCharacter c = CharacterClass.whitespace ↔ (c = ' ' ∨ c = '\t')) ∧
      (classifyCharacter c = CharacterClass.text ↔
        (pyIsAlnum c = true ∧ c ≠ 'v' ∧ c ≠ 'V')) ∧
      classifyCharacter c ≠ CharacterClass.diagonalDown ∧
      classifyCharacter c ≠ CharacterClass.diagonalUp := by
  by_cases h1 : charIn classifierHorizontal c
  · have hc : c = '-' ∨ c = '=' ∨ c = '_' := by
      simpa [charIn, classifierHorizontal] using h1
    rcases hc with h | h | h <;> subst h <;> decide
  · by_cases h2 : charIn classifierVertical c
    · have hc : c = '|' ∨ c = '!' := by simpa [charIn, classifierVertical] using h2
      rcases hc with h | h <;> subst h <;> decide
    · by_cases h3 : charIn classifierCorner c
      · have hc : c = '+' ∨ c = '.' ∨ c = apostropheChar ∨ c = backtickChar := by
          simpa [charIn, classifierCorner] using h3
        rcases hc with h | h | h | h <;> subst h <;> decide
      · by_cases h4 : charIn classifierJunction c
        · have hc : c = '*' := by simpa [charIn, classifierJunction] using h4
          subst hc; decide
        · by_cases h5 : charIn classifierArrow c
          · have hc : c = '<' ∨ c = '>' ∨ c = '^' ∨ c = 'v' ∨ c = 'V' := by
              simpa [charIn, classifierArrow] using h5
            rcases hc with h | h | h | h | h <;> subst h <;> decide
          · by_cases h6 : charIn classifierWhitespace c
            · have hc : c = ' ' ∨ c = '\t' := by
                simpa [charIn, classifierWhitespace] using h6
              rcases hc with h | h <;> subst h <;> decide
            · have e1 : c ≠ '-' ∧ c ≠ '=' ∧ c ≠ '_' := by
                constructor
                · intro h; exact h1 (by subst h; decide)
                constructor
                · intro h; exact h1 (by subst h; decide)
                · intro h; exact h1 (by subst h; decide)
              have e2 : c ≠ '|' ∧ c ≠ '!' := by
                constructor
                · intro h; exact h2 (by subst h; decide)
                · intro h; exact h2 (by subst h; decide)
              have e3 : c ≠ '+' ∧ c ≠ '.' ∧ c ≠ apostropheChar ∧ c ≠ backtickChar := by
                refine ⟨?_, ?_, ?_, ?_⟩ <;> intro h <;> exact h3 (by subst h; decide)
              have e4 : c ≠ '*' := by
                intro h; exact h4 (by subst h; decide)
              have e5 : c ≠ '<' ∧ c ≠ '>' ∧ c ≠ '^' ∧ c ≠ 'v' ∧ c ≠ 'V' := by
                refine ⟨?_, ?_, ?_, ?_, ?_⟩ <;> intro h <;> exact h5 (by subst h; decide)
              have e6 : c ≠ ' ' ∧ c ≠ '\t' := by
                refine ⟨?_, ?_⟩ <;> intro h <;> exact h6 (by subst h; decide)
              by_cases h7 : pyIsAlnum c
              · have hcl : classifyCharacter c = CharacterClass.text := by
                  unfold classifyCharacter
                  rw [if_neg (by simpa using h1), if_neg (by simpa using h2),
                    if_neg (by simpa using h3), if_neg (by simpa using h4),
                    if_neg (by simpa using h5), if_neg (by simpa using h6), if_pos h7]
                simp only [hcl]
                refine ⟨by simp [e1.1, e1.2.1, e1.2.2], by simp [e2.1, e2.2],
                  by simp [e3.1, e3.2.1, e3.2.2.1, e3.2.2.2], by simp [e4],
                  by simp [e5.1, e5.2.1, e5.2.2.1, e5.2.2.2.1, e5.2.2.2.2],
                  by simp [e6.1, e6.2], ?_, by simp, by simp⟩
                simp [h7, e5.2.2.2.1, e5.2.2.2.2]
              · have hcl : classifyCharacter c = CharacterClass.unknown := by
                  unfold classifyCharacter
                  rw [if_neg (by simpa using h1), if_neg (by simpa using h2),
                    if_neg (by simpa using h3), if_neg (by simpa using h4),
                    if_neg (by simpa using h5), if_neg (by simpa using h6),
                    if_neg (by simpa using h7)]
                simp only [hcl]
                refine ⟨by simp [e1.1, e1.2.1, e1.2.2], by simp [e2.1, e2.2],
                  by simp [e3.1, e3.2.1, e3.2.2.1, e3.2.2.2], by simp [e4],
                  by simp [e5.1, e5.2.1, e5.2.2.1, e5.2.2.2.1, e5.2.2.2.2],
                  by simp [e6.1, e6.2], by simp [h7], by simp, by simp⟩

/-- Validity of a position built from natural row and column indices. -/
theorem isValidPos_coe (g : Grid) (rn cn : Nat) :
    g.isValidPos ⟨(rn : Int), (cn : Int)⟩ = true ↔ (rn < g.height ∧ cn < g.width) := by
  simp only [Grid.isValidPos, Bool.and_eq_true, decide_eq_true_eq]
  omega

/-- Membership in the row-major index list. -/
theorem gridIndices_mem (g : Grid) (rc : Nat × Nat) :
    rc ∈ gridIndices g ↔ (rc.1 < g.height ∧ rc.2 < g.width) := by
  simp only [gridIndices, List.mem_flatten, List.mem_map, List.mem_range]
  constructor
  · rintro ⟨l, ⟨r, hr, rfl⟩, hm⟩
    obtain ⟨cc, hc, rfl⟩ := List.mem_map.mp hm
    exact ⟨hr, List.mem_range.mp hc⟩
  · rintro ⟨h1, h2⟩
    exact ⟨(List.range g.width).map (fun c => (rc.1, c)), ⟨rc.1, h1, rfl⟩,
      List.mem_map.mpr ⟨rc.2, List.mem_range.mpr h2, rfl⟩⟩

/-- Characterization of membership in the structural-position set of the
row shift corrector. -/
theorem structuralPositions_mem (g : Grid) (r c : Int) :
    (r, c) ∈ structuralPositions g ↔
      (g.isValidPos ⟨r, c⟩ = true ∧
        charIn (VERTICAL_CHARS ++ CORNER_CHARS) (g.charAt ⟨r, c⟩) = true) := by
  constructor
  · intro h
    simp only [structuralPositions, List.mem_filterMap] at h
    obtain ⟨rc, hmem, hf⟩ := h
    rw [gridIndices_mem] at hmem
    have hv : g.isValidPos ⟨(rc.1 : Int), (rc.2 : Int)⟩ = true :=
      (isValidPos_coe g rc.1 rc.2).mpr hmem
    simp only [structEntry, Grid.getCell, hv, if_true] at hf
    split at hf
    · rename_i hchar
      obtain ⟨h1, h2⟩ := Prod.mk.injEq .. ▸ (Option.some.injEq .. ▸ hf)
      subst h1; subst h2
      exact ⟨hv, hchar⟩
    · exact absurd hf (by simp)
  · rintro ⟨hv, hc⟩
    have hb : 0 ≤ r ∧ r < (g.height : Int) ∧ 0 ≤ c ∧ c < (g.width : Int) := by
      simp [Grid.isValidPos] at hv
      omega
    have hr : ((r.toNat : Int)) = r := Int.toNat_of_nonneg hb.1
    have hcn : ((c.toNat : Int)) = c := Int.toNat_of_nonneg hb.2.2.1
    simp only [structuralPositions, List.mem_filterMap]
    refine ⟨(r.toNat, c.toNat), (gridIndices_mem g _).mpr ⟨by omega, by omega⟩, ?_⟩
    have hv2 : g.isValidPos ⟨(r.toNat : Int), (c.toNat : Int)⟩ = true := by
      rw [hr, hcn]; exact hv
    simp only [structEntry, Grid.getCell, hv2, if_true]
    rw [hr, hcn]
    simp [hc]

/-- Sum of an if-then-else indicator equals a `countP`. -/
theorem sum_map_ite {α : Type} (p : α → Bool) (l : List α) :
    (l.map (fun a => if p a then 1 else 0)).sum = l.countP p := by
  induction l with
  | nil => simp
  | cons a l ih =>
    simp only [List.map_cons, List.sum_cons, List.countP_cons, ih]
    by_cases h : p a
    · simp [h]
      omega
    · simp [h]

/-- Count of range elements hitting one integer column: the predicate can
match at most the single index equal to the column. -/
theorem countP_coe_single (A : Nat → Bool) (c : Int) (w : Nat) :
    (List.range w).countP (fun cn => A cn && decide ((cn : Int) = c)) =
      if 0 ≤ c ∧ c.toNat < w ∧ A c.toNat = true then 1 else 0 := by
  induction w with
  | zero => simp
  | succ n ih =>
    rw [List.range_succ, List.countP_append, ih]
    have hsing : List.countP (fun cn => A cn && decide ((cn : Int) = c)) [n]
        = if A n && decide ((n : Int) = c) then 1 else 0 := by
      simp [List.countP_cons]
    rw [hsing]
    by_cases hc : (n : Int) = c
    · have h1 : c.toNat = n := by omega
      have h0 : 0 ≤ c := by omega
      rw [if_neg (fun h => by omega)]
      by_cases hA : A n = true <;>
        simp [hA, hc, h1, h0]
    · by_cases h0 : 0 ≤ c
      · have hne : c.toNat ≠ n := fun h => hc (by omega)
        have hiff : (0 ≤ c ∧ c.toNat < n ∧ A c.toNat = true) ↔
            (0 ≤ c ∧ c.toNat < n + 1 ∧ A c.toNat = true) := by
          constructor <;> rintro ⟨a, b, d⟩ <;> exact ⟨a, by omega, d⟩
        rw [if_congr hiff rfl rfl]
        simp [hc]
      · simp [hc, h0]

/-- Column projection of one structural-scan entry. -/
theorem structEntry_proj (g : Grid) (c : Int) (rn cn : Nat) :
    ((structEntry g rn cn).map (fun rc : Int × Int => decide (rc.2 = c))).getD false
      = ((decide (rn < g.height) && decide (cn < g.width) &&
          charIn (VERTICAL_CHARS ++ CORNER_CHARS) (g.charAt ⟨(rn : Int), (cn : Int)⟩)) &&
        decide ((cn : Int) = c)) := by
  by_cases hv : g.isValidPos ⟨(rn : Int), (cn : Int)⟩ = true
  · obtain ⟨h1, h2⟩ := (isValidPos_coe g rn cn).mp hv
    simp only [structEntry, Grid.getCell, hv, if_true]
    by_cases hch : charIn (VERTICAL_CHARS ++ CORNER_CHARS) (g.charAt ⟨(rn : Int), (cn : Int)⟩) <;>
      simp [hch, h1, h2]
  · have hnot : ¬ (rn < g.height ∧ cn < g.width) := fun h => hv ((isValidPos_coe g rn cn).mpr h)
    have hvf : g.isValidPos ⟨(rn : Int), (cn : Int)⟩ = false := by
      cases hb : g.isValidPos ⟨(rn : Int), (cn : Int)⟩
      · rfl
      · exact absurd hb hv
    simp only [structEntry, Grid.getCell, hvf]
    simp only [Bool.false_eq_true, if_false, Option.map_none, Option.getD_none]
    rcases Nat.lt_or_ge rn g.height with h | h
    · have h2 : ¬ cn < g.width := fun hh => hnot ⟨h, hh⟩
      simp [h2]
    · have h1 : ¬ rn < g.height := by omega
      simp [h1]

/-- The column histogram counts exactly the rows whose entry at the column
is in the structural-position set. -/
theorem colCounts_eq (g : Grid) (c : Int) :
    colCounts g c =
      ((List.range g.height).filter
        (fun (rn : Nat) => decide (((rn : Int), c) ∈ structuralPositions g))).length := by
  have hsp : structuralPositions g
      = ((List.range g.height).map (fun rn =>
          (List.range g.width).filterMap (fun cn => structEntry g rn cn))).flatten := by
    show (gridIndices g).filterMap (fun rc => structEntry g rc.1 rc.2) = _
    simp only [gridIndices, List.filterMap_flatten, List.map_map]
    refine congrArg List.flatten (List.map_congr_left ?_)
    intro rn _
    simp only [Function.comp]
    rw [List.filterMap_map]
    rfl
  have hrow : ∀ rn ∈ List.range g.height,
      List.countP (fun rc : Int × Int => decide (rc.2 = c))
          ((List.range g.width).filterMap (fun cn => structEntry g rn cn))
        = if decide (((rn : Int), c) ∈ structuralPositions g) = true then 1 else 0 := by
    intro rn hrn
    have hrnh : rn < g.height := List.mem_range.mp hrn
    rw [List.countP_filterMap]
    rw [List.countP_congr (fun cn _ => by rw [structEntry_proj g c rn cn])]
    rw [countP_coe_single
      (fun cn => decide (rn < g.height) && decide (cn < g.width) &&
        charIn (VERTICAL_CHARS ++ CORNER_CHARS) (g.charAt ⟨(rn : Int), (cn : Int)⟩)) c g.width]
    have hiff : (0 ≤ c ∧ c.toNat < g.width ∧
        (decide (rn < g.height) && decide (c.toNat < g.width) &&
          charIn (VERTICAL_CHARS ++ CORNER_CHARS) (g.charAt ⟨(rn : Int), (c.toNat : Int)⟩)) = true)
        ↔ ((rn : Int), c) ∈ structuralPositions g := by
      rw [structuralPositions_mem]
      constructor
      · rintro ⟨h0, hw, hb⟩
        simp only [Bool.and_eq_true, decide_eq_true_eq] at hb
        have hcoe : ((c.toNat : Int)) = c := Int.toNat_of_nonneg h0
        refine ⟨?_, ?_⟩
        · simp only [Grid.isValidPos, Bool.and_eq_true, decide_eq_true_eq]
          omega
        · rw [← hcoe]; exact hb.2
      · rintro ⟨hv, hb⟩
        simp only [Grid.isValidPos, Bool.and_eq_true, decide_eq_true_eq] at hv
        have hcoe : ((c.toNat : Int)) = c := by omega
        refine ⟨by omega, by omega, ?_⟩
        simp only [Bool.and_eq_true, decide_eq_true_eq]
        exact ⟨⟨hrnh, by omega⟩, by rw [hcoe]; exact hb⟩
    by_cases hmem : ((rn : Int), c) ∈ structuralPositions g
    · rw [if_pos (hiff.mpr hmem), if_pos (by simpa using hmem)]
    · rw [if_neg (fun h => hmem (hiff.mp h)), if_neg (by simpa using hmem)]
  calc colCounts g c
      = ((List.range g.height).map (fun rn =>
          List.countP (fun rc : Int × Int => decide (rc.2 = c))
            ((List.range g.width).filterMap (fun cn => structEntry g rn cn)))).sum := by
        show List.countP _ (structuralPositions g) = _
        rw [hsp, List.countP_flatten, List.map_map]
        rfl
    _ = ((List.range g.height).map (fun (rn : Nat) =>
          if decide (((rn : Int), c) ∈ structuralPositions g) = true then 1 else 0)).sum := by
        exact congrArg List.sum (List.map_congr_left hrow)
    _ = ((List.range g.height).filter
          (fun (rn : Nat) => decide (((rn : Int), c) ∈ structuralPositions g))).length := by
        rw [sum_map_ite, List.countP_eq_length_filter]

/-- Claim C6, counterexample.  The claim asserts that a junction-class
character at a column contributes to that column's consensus count; on the
code the histogram of `find_row_shift_corrections` tests membership in
`VERTICAL_CHARS | CORNER_CHARS` only, so the junction character `*` in a
one-cell grid produces an empty structural-position set and a zero count
for its column. -/
theorem junction_not_counted_in_histogram :
    classifyCharacter '*' = CharacterClass.junction ∧
      (gridOfString "*").getCell ⟨0, 0⟩ = some (Cell.mk '*' ⟨0, 0⟩) ∧
      structuralPositions (gridOfString "*") = [] ∧
      colCounts (gridOfString "*") 0 = 0 := by
  refine ⟨by decide, by decide, by decide, by decide⟩

/-- Claim C6, amended.  In `find_row_shift_corrections` the structural
position set holds exactly the in-bounds cells whose character is of
vertical or corner class (junction-class characters are excluded), and the
column histogram counts exactly the rows with such an entry at the
column. -/
theorem structural_positions_characterization (g : Grid) (r c : Int) :
    ((r, c) ∈ structuralPositions g ↔
      (g.isValidPos ⟨r, c⟩ = true ∧
        charIn (VERTICAL_CHARS ++ CORNER_CHARS) (g.charAt ⟨r, c⟩) = true)) ∧
      (colCounts g c =
        ((List.range g.height).filter
          (fun (rn : Nat) => decide (((rn : Int), c) ∈ structuralPositions g))).length) ∧
      (charIn JUNCTION_CHARS (g.charAt ⟨r, c⟩) = true → (r, c) ∉ structuralPositions g) := by
  refine ⟨structuralPositions_mem g r c, colCounts_eq g c, ?_⟩
  intro hj hmem
  have hb := ((structuralPositions_mem g r c).mp hmem).2
  have hall : ∀ ch ∈ JUNCTION_CHARS, charIn (VERTICAL_CHARS ++ CORNER_CHARS) ch = false := by
    decide
  have hnb := hall _ ((charIn_iff _ _).mp hj)
  rw [hb] at hnb
  exact absurd hnb (by decide)

/-- Branch-window count never exceeds the window length. -/
theorem branchCount_le_length (g : Grid) (row : Int) :
    ∀ l : List Nat, branchHorizontalCount g row l ≤ l.length := by
  intro l
  induction l with
  | nil => simp [branchHorizontalCount]
  | cons c cs ih =>
    simp only [branchHorizontalCount, List.length_cons]
    split
    · split
      · omega
      · omega
    · omega

/-- The branch window holds at least two horizontal characters exactly when
the two cells immediately right of the position are horizontal and inside
the grid. -/
theorem branchCount_ge2_iff (g : Grid) (row col : Int)
    (hrow : 0 ≤ row ∧ row < (g.height : Int)) (hcol : 0 ≤ col) :
    2 ≤ branchHorizontalCount g row (branchWindow g col) ↔
      (col + 2 < (g.width : Int) ∧
        charIn HORIZONTAL_CHARS (g.charAt ⟨row, col + 1⟩) = true ∧
        charIn HORIZONTAL_CHARS (g.charAt ⟨row, col + 2⟩) = true) := by
  have hn : ((col.toNat : Int)) = col := Int.toNat_of_nonneg hcol
  by_cases h2 : col.toNat + 3 ≤ g.width
  · obtain ⟨k, hk⟩ : ∃ k, min (col.toNat + 4) g.width - (col.toNat + 1) = k + 2 := by
      rcases Nat.le_total (col.toNat + 4) g.width with h | h
      · exact ⟨1, by omega⟩
      · exact ⟨g.width - (col.toNat + 3), by omega⟩
    have hwl : branchWindow g col =
        (col.toNat + 1) :: (col.toNat + 2) :: List.range' (col.toNat + 3) k := by
      simp only [branchWindow, hk, List.range'_succ, List.map_id]
    have hc1 : ((col.toNat + 1 : Nat) : Int) = col + 1 := by omega
    have hc2 : ((col.toNat + 2 : Nat) : Int) = col + 2 := by omega
    have hv1 : g.isValidPos ⟨row, col + 1⟩ = true := by
      simp only [Grid.isValidPos, Bool.and_eq_true, decide_eq_true_eq]
      omega
    have hv2 : g.isValidPos ⟨row, col + 2⟩ = true := by
      simp only [Grid.isValidPos, Bool.and_eq_true, decide_eq_true_eq]
      omega
    rw [hwl]
    simp only [branchHorizontalCount, hc1, hc2, Grid.getCell, hv1, hv2, if_true]
    by_cases hh1 : charIn HORIZONTAL_CHARS (g.charAt ⟨row, col + 1⟩) = true
    · by_cases hh2 : charIn HORIZONTAL_CHARS (g.charAt ⟨row, col + 2⟩) = true
      · rw [if_pos hh1, if_pos hh2]
        constructor
        · intro _
          refine ⟨by omega, hh1, hh2⟩
        · intro _
          omega
      · rw [if_pos hh1, if_neg hh2]
        constructor
        · intro h
          omega
        · rintro ⟨_, _, hcon⟩
          exact absurd hcon hh2
    · rw [if_neg hh1]
      constructor
      · intro h
        omega
      · rintro ⟨_, hcon, _⟩
        exact absurd hcon hh1
  · have hlen : (branchWindow g col).length ≤ 1 := by
      simp only [branchWindow, List.map_id, List.length_range']
      omega
    have hle := branchCount_le_length g row (branchWindow g col)
    constructor
    · intro h
      omega
    · rintro ⟨hcon, _, _⟩
      omega

/-- Claim C7, counterexample.  The claim asserts that every bridge-class
character (not only the plus sign) can start a tree branch; on the code
(`StructureClassifier._is_tree_branch` tests `value != "+"`), a period — a
bridge-class character — followed by two horizontal characters and with a
vertical character directly above is not counted as a branch start. -/
theorem dot_bridge_not_tree_branch :
    charIn BRIDGE_CHARS '.' = true ∧
      (gridOfString "|\n.--").getCell ⟨1, 0⟩ = some (Cell.mk '.' ⟨1, 0⟩) ∧
      charIn HORIZONTAL_CHARS ((gridOfString "|\n.--").charAt ⟨1, 1⟩) = true ∧
      charIn HORIZONTAL_CHARS ((gridOfString "|\n.--").charAt ⟨1, 2⟩) = true ∧
      classifyCharacter ((gridOfString "|\n.--").charAt ⟨0, 0⟩) = CharacterClass.vertical ∧
      isTreeBranch (gridOfString "|\n.--") ⟨1, 0⟩ = false := by
  refine ⟨by decide, by decide, by decide, by decide, by decide, by decide⟩

/-- Claim C7, amended.  A cell starts a tree branch exactly when it holds
the character plus (only `+`, not every bridge-class character), the two
cells immediately to its right hold horizontal-class characters inside the
grid, and the cell directly above holds a vertical-class character or
another plus; the grid is classified TREE when the branch count reaches the
threshold, with TREE taking precedence over BOX. -/
theorem tree_branch_characterization (g : Grid) (p : Pos) (t : Nat) :
    (isTreeBranch g p = true ↔
      (g.isValidPos p = true ∧ g.charAt p = '+' ∧
        p.col + 2 < (g.width : Int) ∧
        charIn HORIZONTAL_CHARS (g.charAt ⟨p.row, p.col + 1⟩) = true ∧
        charIn HORIZONTAL_CHARS (g.charAt ⟨p.row, p.col + 2⟩) = true ∧
        0 < p.row ∧
        charIn (VERTICAL_CHARS ++ ['|', '+']) (g.charAt ⟨p.row - 1, p.col⟩) = true)) ∧
      (classifyStructure g t = StructureType.tree ↔ t ≤ treeBranchCount g) ∧
      (classifyStructure g t = StructureType.box ↔
        (¬ t ≤ treeBranchCount g ∧ hasBoxPatterns g = true)) := by
  refine ⟨?_, ?_, ?_⟩
  · by_cases hv : g.isValidPos p = true
    · have hb : 0 ≤ p.row ∧ p.row < (g.height : Int) ∧ 0 ≤ p.col ∧ p.col < (g.width : Int) := by
        simp only [Grid.isValidPos, Bool.and_eq_true, decide_eq_true_eq] at hv
        omega
      have hv2 : g.isValidPos p = true := by
        simp only [Grid.isValidPos, Bool.and_eq_true, decide_eq_true_eq]
        omega
      have hgc : g.getCell p = some ⟨g.charAt p, p⟩ := by
        simp only [Grid.getCell, hv2, if_true]
      unfold isTreeBranch
      simp only [hgc]
      by_cases hplus : g.charAt p = '+'
      · rw [if_neg (by simpa using hplus)]
        have hcnt := branchCount_ge2_iff g p.row p.col ⟨hb.1, hb.2.1⟩ hb.2.2.1
        by_cases hcount : 2 ≤ branchHorizontalCount g p.row (branchWindow g p.col)
        · rw [if_neg (by omega)]
          obtain ⟨hw, hh1, hh2⟩ := hcnt.mp hcount
          by_cases hr : 0 < p.row
          · have hva : g.isValidPos ⟨p.row - 1, p.col⟩ = true := by
              simp only [Grid.isValidPos, Bool.and_eq_true, decide_eq_true_eq]
              omega
            rw [if_pos hr]
            simp only [Grid.getCell, hva, if_true]
            constructor
            · intro h
              exact ⟨hv2, hplus, hw, hh1, hh2, hr, h⟩
            · intro h
              exact h.2.2.2.2.2.2
          · rw [if_neg hr]
            constructor
            · intro h
              exact absurd h (by simp)
            · intro h
              exact absurd h.2.2.2.2.2.1 hr
        · rw [if_pos (by omega)]
          constructor
          · intro h
            exact absurd h (by simp)
          · intro h
            exact absurd (hcnt.mpr ⟨h.2.2.1, h.2.2.2.1, h.2.2.2.2.1⟩) hcount
      · rw [if_pos hplus]
        constructor
        · intro h
          exact absurd h (by simp)
        · intro h
          exact absurd h.2.1 hplus
    · have hg : g.getCell p = none := by
        simp only [Grid.getCell]
        rw [if_neg hv]
      simp only [isTreeBranch, hg]
      constructor
      · intro h
        exact absurd h (by simp)
      · intro h
        exact absurd h.1 hv
  · simp only [classifyStructure]
    by_cases ht : t ≤ treeBranchCount g
    · rw [if_pos (by simpa [hasTreePatterns] using ht)]
      simp [ht]
    · rw [if_neg (by simpa [hasTreePatterns] using ht)]
      constructor
      · intro h
        split at h
        · exact absurd h (by decide)
        · exact absurd h (by decide)
      · intro h
        exact absurd h ht
  · simp only [classifyStructure]
    by_cases ht : t ≤ treeBranchCount g
    · rw [if_pos (by simpa [hasTreePatterns] using ht)]
      constructor
      · intro h
        exact absurd h (by decide)
      · intro h
        exact absurd ht h.1
    · rw [if_neg (by simpa [hasTreePatterns] using ht)]
      by_cases hbx : hasBoxPatterns g = true
      · rw [if_pos hbx]
        simp [ht, hbx]
      · rw [if_neg hbx]
        constructor
        · intro h
          exact absurd h (by decide)
        · intro h
          exact absurd h.2 hbx

/-- Claim C4, counterexample.  The claim states the emitted row-shift
correction's cells are exactly the row's non-whitespace cells; the code
collects every cell whose character differs from a space, so a tab — a
whitespace-class character — is included among the moved cells. -/
theorem row_shift_correction_moves_tab_cell :
    findRowShiftCorrections (Grid.fromText ("|  \n|  \n |\t\n|  ".data)) 1 2 =
      [⟨Line.mk [Cell.mk '|' ⟨2, 1⟩, Cell.mk '\t' ⟨2, 2⟩] .horizontal, 0, -1⟩] ∧
      classifyCharacter '\t' = CharacterClass.whitespace := by
  refine ⟨by decide, by decide⟩

/-- Claim C4, amended.  `_check_row` emits a correction for a row only when
every structural column of the row computes one common non-zero pull
offset `d`; the emitted correction has row offset 0 and column offset
`-d`, and its cells are exactly the row's non-space cells (a tab counts as
content); differing pull offsets yield no correction, and if translating
any non-space cell by `-d` would leave the grid the row is skipped. -/
theorem check_row_characterization (g : Grid) (tol minCons : Nat) (row : Int) :
    (∀ corr, checkRow g tol minCons row = some corr →
      ∃ d : Int, d ≠ 0 ∧ rowStructuralCols g row ≠ [] ∧
        (∀ col ∈ rowStructuralCols g row, bestOffset g tol minCons row col = d) ∧
        corr = ⟨Line.mk (rowNonSpaceCells g row) .horizontal, 0, -d⟩ ∧
        rowNonSpaceCells g row ≠ [] ∧
        (∀ cell ∈ rowNonSpaceCells g row,
          0 ≤ cell.position.col - d ∧ cell.position.col - d < (g.width : Int))) ∧
      ((∃ c1 ∈ rowStructuralCols g row, ∃ c2 ∈ rowStructuralCols g row,
          bestOffset g tol minCons row c1 ≠ bestOffset g tol minCons row c2) →
        checkRow g tol minCons row = none) ∧
      (∀ d : Int,
        (∀ col ∈ rowStructuralCols g row, bestOffset g tol minCons row col = d) →
        (∃ cell ∈ rowNonSpaceCells g row,
          ¬ (0 ≤ cell.position.col - d ∧ cell.position.col - d < (g.width : Int))) →
        checkRow g tol minCons row = none) := by
  have main : ∀ corr, checkRow g tol minCons row = some corr →
      ∃ d : Int, d ≠ 0 ∧ rowStructuralCols g row ≠ [] ∧
        (∀ col ∈ rowStructuralCols g row, bestOffset g tol minCons row col = d) ∧
        corr = ⟨Line.mk (rowNonSpaceCells g row) .horizontal, 0, -d⟩ ∧
        rowNonSpaceCells g row ≠ [] ∧
        (∀ cell ∈ rowNonSpaceCells g row,
          0 ≤ cell.position.col - d ∧ cell.position.col - d < (g.width : Int)) := by
    intro corr h
    unfold checkRow at h
    rcases hs : rowStructuralCols g row with _ | ⟨c, cs⟩
    · rw [hs] at h
      exact absurd h (by simp)
    · rw [hs] at h
      simp only [List.map_cons] at h
      split at h
      · exact absurd h (by simp)
      · rename_i huni
        split at h
        · exact absurd h (by simp)
        · rename_i hzero
          rcases hc : rowNonSpaceCells g row with _ | ⟨x, xs⟩
          · rw [hc] at h
            exact absurd h (by simp)
          · rw [hc] at h
            split at h
            · exact absurd h (by simp)
            · split at h
              · rename_i hbounds
                refine ⟨bestOffset g tol minCons row c, hzero, by simp [hs], ?_, ?_,
                  by simp [hc], ?_⟩
                · intro col hcol
                  rcases List.mem_cons.mp hcol with rfl | hmem
                  · rfl
                  · have := (List.all_eq_true.mp (not_not.mp huni)) _
                      (List.mem_map_of_mem _ hmem)
                    simpa using this
                · exact (Option.some.inj h).symm
                · intro cell hcell
                  have := List.all_eq_true.mp hbounds _ hcell
                  simp only [Bool.and_eq_true, decide_eq_true_eq] at this
                  exact this
              · exact absurd h (by simp)
  refine ⟨main, ?_, ?_⟩
  · rintro ⟨c1, h1, c2, h2, hne⟩
    cases hck : checkRow g tol minCons row with
    | none => rfl
    | some corr =>
      obtain ⟨d, _, _, hall, _, _, _⟩ := main corr hck
      exact absurd (by rw [hall c1 h1, hall c2 h2]) hne
  · rintro d hall ⟨cell, hcell, hbad⟩
    cases hck : checkRow g tol minCons row with
    | none => rfl
    | some corr =>
      obtain ⟨d2, _, hne, hall2, _, _, hbnd⟩ := main corr hck
      rcases hs2 : rowStructuralCols g row with _ | ⟨c0, _⟩
      · exact absurd hs2 hne
      · have hc0 : c0 ∈ rowStructuralCols g row := by
          rw [hs2]
          exact List.mem_cons_self c0 _
        have hdd : d = d2 := by rw [← hall c0 hc0, hall2 c0 hc0]
        exact absurd (hdd ▸ hbnd cell hcell) hbad

/-- Grid dimensions are untouched by a functional cell update. -/
theorem setChar_width (g : Grid) (p : Pos) (c : Char) : (g.setChar p c).width = g.width := rfl

/-- Grid height is untouched by a functional cell update. -/
theorem setChar_height (g : Grid) (p : Pos) (c : Char) : (g.setChar p c).height = g.height := rfl

/-- Position validity is untouched by a functional cell update. -/
theorem isValidPos_setChar (g : Grid) (p q : Pos) (c : Char) :
    (g.setChar p c).isValidPos q = g.isValidPos q := rfl

/-- Well-formedness is preserved by a functional cell update. -/
theorem wellformed_setChar (g : Grid) (p : Pos) (c : Char) (hwf : g.Wellformed) :
    (g.setChar p c).Wellformed := by
  obtain ⟨hlen, hrows⟩ := hwf
  constructor
  · simp only [Grid.setChar, List.length_set]
    exact hlen
  · intro row hmem
    simp only [Grid.setChar] at hmem
    by_cases hi : p.row.toNat < g.data.length
    · rcases List.mem_or_eq_of_mem_set hmem with h | h
      · exact hrows row h
      · subst h
        rw [List.length_set]
        apply hrows
        rw [List.getD_eq_getElem g.data [] hi]
        exact List.getElem_mem hi
    · rw [List.set_eq_of_length_le (by omega)] at hmem
      exact hrows row hmem

/-- Defaulted lookup after an in-range list update. -/
theorem getD_set_of_lt {α : Type} (l : List α) (i j : Nat) (a d : α) (hi : i < l.length) :
    (l.set i a).getD j d = if i = j then a else l.getD j d := by
  by_cases h : i = j
  · subst h
    rw [if_pos rfl, List.getD_eq_getElem?_getD, List.getElem?_set, if_pos rfl, if_pos hi]
    simp
  · rw [if_neg h, List.getD_eq_getElem?_getD, List.getElem?_set, if_neg h,
      ← List.getD_eq_getElem?_getD]

/-- Pointwise effect of a functional cell update on a well-formed grid. -/
theorem charAt_setChar (g : Grid) (p q : Pos) (c : Char) (hwf : g.Wellformed)
    (hp : g.isValidPos p = true) (hq : g.isValidPos q = true) :
    (g.setChar p c).charAt q = if q = p then c else g.charAt q := by
  obtain ⟨hlen, hrows⟩ := hwf
  simp only [Grid.isValidPos, Bool.and_eq_true, decide_eq_true_eq] at hp hq
  have hplen : p.row.toNat < g.data.length := by omega
  have hrowlen : (g.data.getD p.row.toNat []).length = g.width := by
    apply hrows
    rw [List.getD_eq_getElem g.data [] hplen]
    exact List.getElem_mem hplen
  simp only [Grid.setChar, Grid.charAt]
  rw [getD_set_of_lt _ _ _ _ _ hplen]
  by_cases hrq : p.row.toNat = q.row.toNat
  · rw [if_pos hrq, getD_set_of_lt _ _ _ _ _ (by omega)]
    by_cases hcq : p.col.toNat = q.col.toNat
    · rw [if_pos hcq]
      have hqp : q = p := by
        have h1 : q.row = p.row := by omega
        have h2 : q.col = p.col := by omega
        cases q
        cases p
        simp only [Pos.mk.injEq]
        exact ⟨h1, h2⟩
      rw [if_pos hqp]
    · rw [if_neg hcq]
      have hqp : ¬ q = p := by
        intro h
        subst h
        exact hcq rfl
      rw [if_neg hqp, hrq]
  · rw [if_neg hrq]
    have hqp : ¬ q = p := by
      intro h
      subst h
      exact hrq rfl
    rw [if_neg hqp]

/-- A monadic write loop with every target in bounds succeeds and computes
the pure fold of functional updates. -/
theorem foldlM_setCellE_ok {α : Type} (tr : α → Pos) (ch : α → Char) (l : List α) :
    ∀ g : Grid, (∀ x ∈ l, g.isValidPos (tr x) = true) →
      l.foldlM (fun acc x => acc.setCellE (tr x) (ch x)) g
        = Except.ok (l.foldl (fun acc x => acc.setChar (tr x) (ch x)) g) := by
  induction l with
  | nil => intro g _; rfl
  | cons x xs ih =>
    intro g h
    have hx := h x (List.mem_cons_self x xs)
    simp only [List.foldlM_cons, Grid.setCellE, hx, if_true, List.foldl_cons]
    exact ih (g.setChar (tr x) (ch x)) (fun y hy => h y (List.mem_cons_of_mem x hy))

/-- A monadic write loop with some target out of bounds raises the index
error. -/
theorem foldlM_setCellE_err {α : Type} (tr : α → Pos) (ch : α → Char) (l : List α) :
    ∀ g : Grid, (∃ x ∈ l, ¬ g.isValidPos (tr x) = true) →
      l.foldlM (fun acc x => acc.setCellE (tr x) (ch x)) g = Except.error PyErr.indexError := by
  induction l with
  | nil =>
    rintro g ⟨x, hx, _⟩
    exact absurd hx (by simp)
  | cons x xs ih =>
    rintro g ⟨y, hy, hinv⟩
    by_cases hx : g.isValidPos (tr x) = true
    · simp only [List.foldlM_cons, Grid.setCellE, hx, if_true]
      apply ih
      rcases List.mem_cons.mp hy with rfl | hmem
      · exact absurd hx hinv
      · exact ⟨y, hmem, hinv⟩
    · simp only [List.foldlM_cons, Grid.setCellE, hx]
      rfl

/-- Width is unchanged by a pure write fold. -/
theorem foldl_setChar_width {α : Type} (tr : α → Pos) (ch : α → Char) (l : List α) :
    ∀ g : Grid, (l.foldl (fun acc x => acc.setChar (tr x) (ch x)) g).width = g.width := by
  induction l with
  | nil => intro g; rfl
  | cons x xs ih => intro g; simpa using ih (g.setChar (tr x) (ch x))

/-- Height is unchanged by a pure write fold. -/
theorem foldl_setChar_height {α : Type} (tr : α → Pos) (ch : α → Char) (l : List α) :
    ∀ g : Grid, (l.foldl (fun acc x => acc.setChar (tr x) (ch x)) g).height = g.height := by
  induction l with
  | nil => intro g; rfl
  | cons x xs ih => intro g; simpa using ih (g.setChar (tr x) (ch x))

/-- Position validity is unchanged by a pure write fold. -/
theorem foldl_setChar_isValidPos {α : Type} (tr : α → Pos) (ch : α → Char) (l : List α) :
    ∀ (g : Grid) (q : Pos),
      (l.foldl (fun acc x => acc.setChar (tr x) (ch x)) g).isValidPos q = g.isValidPos q := by
  induction l with
  | nil => intro g q; rfl
  | cons x xs ih => intro g q; simpa using ih (g.setChar (tr x) (ch x)) q

/-- Well-formedness is preserved by a pure write fold. -/
theorem foldl_setChar_wellformed {α : Type} (tr : α → Pos) (ch : α → Char) (l : List α) :
    ∀ g : Grid, g.Wellformed →
      (l.foldl (fun acc x => acc.setChar (tr x) (ch x)) g).Wellformed := by
  induction l with
  | nil => intro g h; exact h
  | cons x xs ih =>
    intro g h
    exact ih (g.setChar (tr x) (ch x)) (wellformed_setChar g (tr x) (ch x) h)

/-- Last-write-wins characterization of a pure write fold on well-formed
grids. -/
theorem charAt_foldl_setChar {α : Type} (tr : α → Pos) (ch : α → Char) (l : List α) :
    ∀ g : Grid, g.Wellformed → (∀ x ∈ l, g.isValidPos (tr x) = true) →
      ∀ q : Pos, g.isValidPos q = true →
      (l.foldl (fun acc x => acc.setChar (tr x) (ch x)) g).charAt q
        = (((l.filter (fun x => tr x = q)).map ch).getLast?).getD (g.charAt q) := by
  induction l with
  | nil => intro g _ _ q _; rfl
  | cons x xs ih =>
    intro g hwf hv q hq
    simp only [List.foldl_cons]
    rw [ih (g.setChar (tr x) (ch x)) (wellformed_setChar g (tr x) (ch x) hwf)
      (fun y hy => hv y (List.mem_cons_of_mem x hy)) q hq]
    rw [charAt_setChar g (tr x) q (ch x) hwf (hv x (List.mem_cons_self x xs)) hq]
    by_cases hfq : tr x = q
    · rw [List.filter_cons_of_pos (by simpa using hfq)]
      rcases hxf : xs.filter (fun y => decide (tr y = q)) with _ | ⟨h1, t1⟩
      · simp only [hxf, List.map_cons, List.map_nil, List.getLast?_singleton,
          Option.getD_some, List.getLast?_nil, Option.getD_none]
        rw [if_pos hfq.symm]
      · simp only [hxf, List.map_cons]
        rw [List.getLast?_cons_cons]
        cases hz : (ch h1 :: List.map ch t1).getLast? with
        | none => simp at hz
        | some z => simp [hz]
    · rw [List.filter_cons_of_neg (by simpa using hfq)]
      have hne : ¬ q = tr x := fun h => hfq h.symm
      rw [if_neg hne]


/-- Reduction of an Except bind on a success value. -/
theorem except_bind_ok {E A B : Type} (x : A) (f : A → Except E B) :
    (Except.ok x >>= f) = f x := rfl

/-- Reduction of an Except bind on an error value. -/
theorem except_bind_err {E A B : Type} (e : E) (f : A → Except E B) :
    ((Except.error e : Except E A) >>= f) = Except.error e := rfl

/-- Claim C2, counterexample.  The claim states `apply_correction` raises
an out-of-bounds error if and only if some translated position is outside
the grid.  A correction whose cell sits at an out-of-grid original position
but whose translated position is inside passes validation, and then
`clear_cell` raises an index error — an error although every translated
position is in bounds. -/
theorem apply_correction_raises_despite_translated_in_bounds :
    (∀ cell ∈ (ShiftCorrection.mk (Line.mk [Cell.mk '|' ⟨-5, 0⟩] .vertical) 6 0).line.cells,
      (gridOfString "ab\ncd").isValidPos
        (translatePos (ShiftCorrection.mk (Line.mk [Cell.mk '|' ⟨-5, 0⟩] .vertical) 6 0)
          cell.position) = true) ∧
      applyCorrection (ShiftCorrection.mk (Line.mk [Cell.mk '|' ⟨-5, 0⟩] .vertical) 6 0)
          (gridOfString "ab\ncd")
        = Except.error PyErr.indexError := by
  refine ⟨by decide, by decide⟩

/-- Claim C2, amended.  `apply_correction` never mutates its input (the
embedding is functional; the source works on a copy which is discarded on
error, so each correction is atomic).  Zero offsets return a copy of the
input unchanged.  With a non-zero offset it raises the out-of-bounds
`ValueError` exactly when some translated position leaves the grid; when
every translated position is inside but some original cell position is
outside, it instead raises an `IndexError` from `clear_cell` (the one
divergence from the claim); when all positions are inside it succeeds, and
the result clears every original position to whitespace before writing
every character at its translated position (a later write overwrites an
earlier one at the same target). -/
theorem apply_correction_contract (corr : ShiftCorrection) (g : Grid) :
    ((corr.rowOffset = 0 ∧ corr.colOffset = 0) → applyCorrection corr g = Except.ok g) ∧
      (¬ (corr.rowOffset = 0 ∧ corr.colOffset = 0) →
        ((applyCorrection corr g = Except.error PyErr.valueError ↔
          ∃ cell ∈ corr.line.cells,
            ¬ g.isValidPos (translatePos corr cell.position) = true) ∧
        ((∀ cell ∈ corr.line.cells, g.isValidPos (translatePos corr cell.position) = true) →
          (((∀ cell ∈ corr.line.cells, g.isValidPos cell.position = true) →
              applyCorrection corr g = Except.ok (pureApply corr g)) ∧
            ((∃ cell ∈ corr.line.cells, ¬ g.isValidPos cell.position = true) →
              applyCorrection corr g = Except.error PyErr.indexError))))) ∧
      (g.Wellformed →
        ((pureApply corr g).width = g.width ∧ (pureApply corr g).height = g.height ∧
          ((∀ cell ∈ corr.line.cells, g.isValidPos (translatePos corr cell.position) = true) →
            (∀ cell ∈ corr.line.cells, g.isValidPos cell.position = true) →
            ∀ q : Pos, g.isValidPos q = true →
              (pureApply corr g).charAt q =
                match lastWriteAt corr q with
                | some ch => ch
                | none =>
                  if (originalPositions corr).contains q then ' ' else g.charAt q))) := by
  have hcommon : ∀ hcond : (decide (corr.rowOffset = 0) && decide (corr.colOffset = 0)) = false,
      applyCorrection corr g =
        if ¬ corr.line.cells.all
            (fun cell => g.isValidPos (translatePos corr cell.position)) = true
        then Except.error PyErr.valueError
        else (corr.line.cells.foldlM (fun acc cell => Grid.clearCellE acc cell.position) g >>=
          fun cleared => corr.line.cells.foldlM
            (fun acc cell => Grid.setCellE acc (translatePos corr cell.position) cell.character)
            cleared) := by
    intro hcond
    simp only [applyCorrection, Grid.copy, hcond, Bool.false_eq_true, if_false]
  refine ⟨?_, ?_, ?_⟩
  · rintro ⟨h1, h2⟩
    simp only [applyCorrection, Grid.copy, h1, h2]
    rfl
  · intro hnz
    have hcond : (decide (corr.rowOffset = 0) && decide (corr.colOffset = 0)) = false := by
      cases hb : (decide (corr.rowOffset = 0) && decide (corr.colOffset = 0)) with
      | false => rfl
      | true =>
        simp only [Bool.and_eq_true, decide_eq_true_eq] at hb
        exact absurd hb hnz
    rw [hcommon hcond]
    constructor
    · by_cases hall : corr.line.cells.all
          (fun cell => g.isValidPos (translatePos corr cell.position)) = true
      · rw [if_neg (not_not_intro hall)]
        have hex : ¬ ∃ cell ∈ corr.line.cells,
            ¬ g.isValidPos (translatePos corr cell.position) = true := by
          rintro ⟨cell, hc, hinv⟩
          exact hinv (List.all_eq_true.mp hall cell hc)
        constructor
        · intro h
          simp only [Grid.clearCellE] at h
          by_cases horig : ∀ cell ∈ corr.line.cells, g.isValidPos cell.position = true
          · rw [foldlM_setCellE_ok (fun cell : Cell => cell.position) (fun _ : Cell => ' ')
              corr.line.cells g horig, except_bind_ok] at h
            have htr2 : ∀ cell ∈ corr.line.cells,
                (corr.line.cells.foldl (fun acc x => acc.setChar x.position ' ') g).isValidPos
                  (translatePos corr cell.position) = true := by
              intro cell hc
              rw [foldl_setChar_isValidPos (fun x : Cell => x.position) (fun _ : Cell => ' ')]
              exact List.all_eq_true.mp hall cell hc
            rw [foldlM_setCellE_ok (fun cell : Cell => translatePos corr cell.position)
              (fun cell : Cell => cell.character) corr.line.cells _ htr2] at h
            exact absurd h (by simp)
          · push_neg at horig
            obtain ⟨cell, hc, hinv⟩ := horig
            rw [foldlM_setCellE_err (fun cell : Cell => cell.position) (fun _ : Cell => ' ')
              corr.line.cells g ⟨cell, hc, hinv⟩, except_bind_err] at h
            exact absurd h (by simp)
        · intro h
          exact absurd h hex
      · rw [if_pos hall]
        refine ⟨fun _ => ?_, fun _ => rfl⟩
        by_contra hno
        push_neg at hno
        exact hall (List.all_eq_true.mpr (fun cell hc => hno cell hc))
    · intro htr
      have hall : corr.line.cells.all
          (fun cell => g.isValidPos (translatePos corr cell.position)) = true :=
        List.all_eq_true.mpr (fun cell hc => htr cell hc)
      rw [if_neg (not_not_intro hall)]
      constructor
      · intro horig
        simp only [Grid.clearCellE]
        rw [foldlM_setCellE_ok (fun cell : Cell => cell.position) (fun _ : Cell => ' ')
          corr.line.cells g horig, except_bind_ok]
        have htr2 : ∀ cell ∈ corr.line.cells,
            (corr.line.cells.foldl (fun acc x => acc.setChar x.position ' ') g).isValidPos
              (translatePos corr cell.position) = true := by
          intro cell hc
          rw [foldl_setChar_isValidPos (fun x : Cell => x.position) (fun _ : Cell => ' ')]
          exact htr cell hc
        rw [foldlM_setCellE_ok (fun cell : Cell => translatePos corr cell.position)
          (fun cell : Cell => cell.character) corr.line.cells _ htr2]
        rfl
      · rintro ⟨cell, hc, hinv⟩
        simp only [Grid.clearCellE]
        rw [foldlM_setCellE_err (fun cell : Cell => cell.position) (fun _ : Cell => ' ')
          corr.line.cells g ⟨cell, hc, hinv⟩, except_bind_err]
  · intro hwf
    refine ⟨?_, ?_, ?_⟩
    · exact (foldl_setChar_width (fun cell : Cell => translatePos corr cell.position)
        (fun cell : Cell => cell.character) corr.line.cells _).trans
        (foldl_setChar_width (fun cell : Cell => cell.position) (fun _ : Cell => ' ')
          corr.line.cells g)
    · exact (foldl_setChar_height (fun cell : Cell => translatePos corr cell.position)
        (fun cell : Cell => cell.character) corr.line.cells _).trans
        (foldl_setChar_height (fun cell : Cell => cell.position) (fun _ : Cell => ' ')
          corr.line.cells g)
    · intro htr horig q hq
      have hcleared : (corr.line.cells.foldl
          (fun acc cell => acc.setChar cell.position ' ') g).Wellformed :=
        foldl_setChar_wellformed (fun cell : Cell => cell.position) (fun _ : Cell => ' ')
          corr.line.cells g hwf
      have hstep1 : (pureApply corr g).charAt q =
          (((corr.line.cells.filter
              (fun cell => translatePos corr cell.position = q)).map
            (fun cell => cell.character)).getLast?).getD
            ((corr.line.cells.foldl
              (fun acc cell => acc.setChar cell.position ' ') g).charAt q) := by
        exact charAt_foldl_setChar (fun cell : Cell => translatePos corr cell.position)
          (fun cell : Cell => cell.character) corr.line.cells
          (corr.line.cells.foldl (fun acc cell => acc.setChar cell.position ' ') g)
          hcleared
          (fun cell hc => by
            rw [foldl_setChar_isValidPos (fun x : Cell => x.position) (fun _ : Cell => ' ')]
            exact htr cell hc)
          q
          (by
            rw [foldl_setChar_isValidPos (fun x : Cell => x.position) (fun _ : Cell => ' ')]
            exact hq)
      have hstep2 : (corr.line.cells.foldl
          (fun acc cell => acc.setChar cell.position ' ') g).charAt q =
          (((corr.line.cells.filter (fun cell => cell.position = q)).map
            (fun _ => ' ')).getLast?).getD (g.charAt q) :=
        charAt_foldl_setChar (fun cell : Cell => cell.position) (fun _ : Cell => ' ')
          corr.line.cells g hwf horig q hq
      rw [hstep1, hstep2]
      cases hlw : lastWriteAt corr q with
      | some ch =>
        have hsome : ((corr.line.cells.filter
            (fun cell => translatePos corr cell.position = q)).map
          (fun cell => cell.character)).getLast? = some ch := hlw
        rw [hsome]
        simp
      | none =>
        have hnone : ((corr.line.cells.filter
            (fun cell => translatePos corr cell.position = q)).map
          (fun cell => cell.character)).getLast? = none := hlw
        rw [hnone]
        simp only [Option.getD_none]
        rcases hf : corr.line.cells.filter (fun cell => decide (cell.position = q))
          with _ | ⟨a, b⟩
        · rw [hf]
          have hnotmem : ¬ q ∈ originalPositions corr := by
            intro hmem
            obtain ⟨cell, hcm, hpos⟩ := List.mem_map.mp hmem
            have hnil := List.filter_eq_nil_iff.mp hf cell hcm
            simp only [decide_eq_true_eq] at hnil
            exact hnil hpos
          simp [hnotmem]
        · rw [hf]
          have hlast : ((a :: b).map (fun _ : Cell => ' ')).getLast? = some ' ' := by
            rw [List.getLast?_map]
            rcases hz : (a :: b).getLast? with _ | z
            · simp at hz
            · simp [hz]
          rw [hlast]
          have ha : a ∈ corr.line.cells ∧ a.position = q := by
            have := List.mem_filter.mp (hf ▸ List.mem_cons_self a b)
            exact ⟨this.1, by simpa using this.2⟩
          have hmem : q ∈ originalPositions corr := List.mem_map.mpr ⟨a, ha.1, ha.2⟩
          simp [hmem]

/-- Witness for the amended claim C2 contract at a concrete correction and
grid: a one-cell correction with row offset 1 on a 2x2 grid succeeds, and
its pointwise description holds at the translated target. -/
theorem apply_correction_contract_witness :
    applyCorrection (ShiftCorrection.mk (Line.mk [Cell.mk 'x' ⟨0, 0⟩] .vertical) 1 0)
        (gridOfString "ab\ncd")
      = Except.ok (pureApply (ShiftCorrection.mk (Line.mk [Cell.mk 'x' ⟨0, 0⟩] .vertical) 1 0)
          (gridOfString "ab\ncd")) ∧
      (pureApply (ShiftCorrection.mk (Line.mk [Cell.mk 'x' ⟨0, 0⟩] .vertical) 1 0)
          (gridOfString "ab\ncd")).charAt ⟨1, 0⟩ =
        match lastWriteAt (ShiftCorrection.mk (Line.mk [Cell.mk 'x' ⟨0, 0⟩] .vertical) 1 0)
            ⟨1, 0⟩ with
        | some ch => ch
        | none =>
          if (originalPositions
              (ShiftCorrection.mk (Line.mk [Cell.mk 'x' ⟨0, 0⟩] .vertical) 1 0)).contains ⟨1, 0⟩
          then ' ' else (gridOfString "ab\ncd").charAt ⟨1, 0⟩ :=
  ⟨(((apply_correction_contract
        (ShiftCorrection.mk (Line.mk [Cell.mk 'x' ⟨0, 0⟩] .vertical) 1 0)
        (gridOfString "ab\ncd")).2.1 (by decide)).2 (by decide)).1 (by decide),
    ((apply_correction_contract
        (ShiftCorrection.mk (Line.mk [Cell.mk 'x' ⟨0, 0⟩] .vertical) 1 0)
        (gridOfString "ab\ncd")).2.2 ⟨by decide, by decide⟩).2.2 (by decide) (by decide) ⟨1, 0⟩ (by decide)⟩

/-- Right-stripping absorbs one trailing space. -/
theorem rstrip_append_space (l : List Char) : rstrip (l ++ [' ']) = rstrip l := by
  simp [rstrip, List.dropWhile, pyIsSpace, charIn]

/-- Right-stripping absorbs trailing space padding. -/
theorem rstrip_append_replicate (l : List Char) (k : Nat) :
    rstrip (l ++ List.replicate k ' ') = rstrip l := by
  induction k with
  | zero => simp
  | succ n ih =>
    rw [List.replicate_succ' n ' ', ← List.append_assoc, rstrip_append_space]
    exact ih

/-- Right-stripping is idempotent. -/
theorem rstrip_idem (l : List Char) : rstrip (rstrip l) = rstrip l := by
  simp only [rstrip, List.reverse_reverse]
  rw [List.dropWhile_idempotent]

/-- Characters of a right-stripped line come from the line. -/
theorem mem_rstrip {a : Char} {l : List Char} (h : a ∈ rstrip l) : a ∈ l := by
  simp only [rstrip, List.mem_reverse] at h
  exact List.mem_reverse.mp ((List.dropWhile_sublist pyIsSpace).mem h)

/-- Lines kept by the trailing-empty-line removal come from the input. -/
theorem mem_dropTrailingEmpty {l : List Char} {ls : List (List Char)}
    (h : l ∈ dropTrailingEmpty ls) : l ∈ ls := by
  simp only [dropTrailingEmpty, List.mem_reverse] at h
  exact List.mem_reverse.mp ((List.dropWhile_sublist List.isEmpty).mem h)

/-- The first entry surviving a dropWhile fails the predicate. -/
theorem head?_dropWhile_not {α : Type} (p : α → Bool) (l : List α) :
    ∀ a, (List.dropWhile p l).head? = some a → p a = false := by
  induction l with
  | nil =>
    intro a h
    exact absurd h (by simp)
  | cons x xs ih =>
    intro a h
    by_cases hp : p x = true
    · rw [List.dropWhile_cons_of_pos hp] at h
      exact ih a h
    · rw [List.dropWhile_cons_of_neg hp] at h
      simp only [List.head?_cons] at h
      obtain rfl := Option.some.inj h
      exact Bool.eq_false_iff.mpr hp

/-- After removing trailing empty lines, the last kept line is nonempty. -/
theorem dropTrailingEmpty_last {ls : List (List Char)} {l0 : List Char}
    (h : (dropTrailingEmpty ls).getLast? = some l0) : l0.isEmpty = false := by
  simp only [dropTrailingEmpty] at h
  rw [List.getLast?_reverse] at h
  exact head?_dropWhile_not List.isEmpty ls.reverse l0 h

/-- Removing trailing empty lines is the identity when the last line is
nonempty. -/
theorem dropTrailingEmpty_eq_self {ls : List (List Char)} {l0 : List Char}
    (hlast : ls.getLast? = some l0) (hl0 : l0.isEmpty = false) :
    dropTrailingEmpty ls = ls := by
  rcases hrv : ls.reverse with _ | ⟨h0, t0⟩
  · have hnil : ls = [] := by simpa using congrArg List.reverse hrv
    rw [hnil] at hlast
    exact absurd hlast (by simp)
  · have hls : ls = t0.reverse ++ [h0] := by
      have := congrArg List.reverse hrv
      simpa using this
    have hh0 : h0 = l0 := by
      rw [hls, List.getLast?_concat] at hlast
      exact Option.some.inj hlast
    simp only [dropTrailingEmpty]
    rw [hrv, List.dropWhile_cons_of_neg (by simp [hh0, hl0]), ← hrv, List.reverse_reverse]

/-- A newline join of a list ending in a nonempty line is nonempty. -/
theorem joinNl_ne_nil {ls : List (List Char)} {l0 : List Char}
    (h : ls.getLast? = some l0) (hl0 : l0.isEmpty = false) : joinNl ls ≠ [] := by
  rcases ls with _ | ⟨a, rest⟩
  · exact absurd h (by simp)
  · rcases rest with _ | ⟨b, t⟩
    · have ha : a = l0 := by simpa using h
      subst ha
      simp only [joinNl]
      intro hnil
      rw [hnil] at hl0
      exact absurd hl0 (by simp)
    · simp [joinNl]

/-- Splitting a newline-free line is the identity. -/
theorem splitOnNl_no_newline {l : List Char} (h : '\n' ∉ l) : splitOnNl l = [l] := by
  induction l with
  | nil => rfl
  | cons c rest ih =>
    have hc : ¬ c = '\n' := by
      intro e
      exact h (by rw [e]; exact List.mem_cons_self '\n' rest)
    have hrest : '\n' ∉ rest := fun hm => h (List.mem_cons_of_mem _ hm)
    simp only [splitOnNl, if_neg hc, ih hrest]

/-- Splitting past the first newline peels off the first line. -/
theorem splitOnNl_append {l t : List Char} (h : '\n' ∉ l) :
    splitOnNl (l ++ '\n' :: t) = l :: splitOnNl t := by
  induction l with
  | nil => simp [splitOnNl]
  | cons c rest ih =>
    have hc : ¬ c = '\n' := by
      intro e
      exact h (by rw [e]; exact List.mem_cons_self '\n' rest)
    have hrest : '\n' ∉ rest := fun hm => h (List.mem_cons_of_mem _ hm)
    simp only [List.cons_append, splitOnNl, if_neg hc, List.append_eq, ih hrest]

/-- Splitting inverts joining for newline-free lines. -/
theorem splitOnNl_joinNl {ls : List (List Char)} (hne : ls ≠ [])
    (hnonl : ∀ l ∈ ls, '\n' ∉ l) : splitOnNl (joinNl ls) = ls := by
  induction ls with
  | nil => exact absurd rfl hne
  | cons a rest ih =>
    rcases rest with _ | ⟨b, t⟩
    · simp only [joinNl]
      exact splitOnNl_no_newline (hnonl a (List.mem_cons_self a []))
    · have hj : joinNl (a :: b :: t) = a ++ '\n' :: joinNl (b :: t) := rfl
      rw [hj, splitOnNl_append (hnonl a (List.mem_cons_self a (b :: t))),
        ih (by simp) (fun l hl => hnonl l (List.mem_cons_of_mem _ hl))]

/-- Rendering the grid built by `from_string` from a joined list of stable,
newline-free lines with a nonempty last line reproduces the joined text. -/
theorem fromText_joinNl_toText (L : List (List Char))
    (hstable : ∀ l ∈ L, rstrip l = l) (hnonl : ∀ l ∈ L, '\n' ∉ l)
    (llast : List Char) (hlastEq : L.getLast? = some llast)
    (hlast0 : llast.isEmpty = false) :
    (Grid.fromText (joinNl L)).toText = joinNl L := by
  have hLne : L ≠ [] := by
    intro h
    rw [h] at hlastEq
    exact absurd hlastEq (by simp)
  have htne : joinNl L ≠ [] := joinNl_ne_nil hlastEq hlast0
  have hsplit : splitOnNl (joinNl L) = L := splitOnNl_joinNl hLne hnonl
  have key : ∀ w : Nat, (Grid.mk w L.length (L.map (padRow w))).toText = joinNl L := by
    intro w
    have hcongr : ∀ l ∈ L, (rstrip ∘ padRow w) l = l := by
      intro l hl
      show rstrip (padRow w l) = l
      rw [padRow, rstrip_append_replicate, hstable l hl]
    have hmap : (L.map (padRow w)).map rstrip = L := by
      rw [List.map_map, List.map_congr_left hcongr]
      exact List.map_id L
    show joinNl (dropTrailingEmpty ((L.map (padRow w)).map rstrip)) = joinNl L
    rw [hmap, dropTrailingEmpty_eq_self hlastEq hlast0]
  have hcond : ¬ (joinNl L).isEmpty = true := by
    rw [List.isEmpty_iff]
    exact htne
  simp only [Grid.fromText, hsplit]
  rw [if_neg hcond]
  exact key _

/-- C9 counterexample: for the 4x1 grid whose single row holds a newline
character in a cell, `Grid.from_string(g.to_string()).to_string()` differs
from `g.to_string()` — the embedded newline is reinterpreted as a row break
on re-parsing, so the round-trip is not stable for every grid. -/
theorem round_trip_fails_with_newline_cell :
    ¬ ((Grid.fromText (Grid.toText ⟨4, 1, [['a', ' ', '\n', 'b']]⟩)).toText
        = Grid.toText ⟨4, 1, [['a', ' ', '\n', 'b']]⟩) := by decide

/-- C9 (amended): `Grid.from_string(g.to_string()).to_string()` equals
`g.to_string()` for every grid none of whose rows contains the newline
character — `from_string` pads short lines with spaces to the longest line
and `to_string` strips trailing whitespace per line and trailing empty
lines, and these normalizations are stable on a second pass. -/
theorem grid_round_trip_stable (g : Grid)
    (hnl : ∀ row ∈ g.data, '\n' ∉ row) :
    (Grid.fromText g.toText).toText = g.toText := by
  have hstable : ∀ l ∈ dropTrailingEmpty (g.data.map rstrip), rstrip l = l := by
    intro l hl
    obtain ⟨row, hrow, hrw⟩ := List.mem_map.mp (mem_dropTrailingEmpty hl)
    rw [← hrw]
    exact rstrip_idem row
  have hnonl : ∀ l ∈ dropTrailingEmpty (g.data.map rstrip), '\n' ∉ l := by
    intro l hl
    obtain ⟨row, hrow, hrw⟩ := List.mem_map.mp (mem_dropTrailingEmpty hl)
    rw [← hrw]
    exact fun hin => hnl row hrow (mem_rstrip hin)
  cases hlast : (dropTrailingEmpty (g.data.map rstrip)).getLast? with
  | none =>
    have hnil : dropTrailingEmpty (g.data.map rstrip) = [] :=
      List.getLast?_eq_none_iff.mp hlast
    show (Grid.fromText (joinNl (dropTrailingEmpty (g.data.map rstrip)))).toText
        = joinNl (dropTrailingEmpty (g.data.map rstrip))
    rw [hnil]
    rfl
  | some llast =>
    have hlast0 : llast.isEmpty = false := dropTrailingEmpty_last hlast
    exact fromText_joinNl_toText _ hstable hnonl llast hlast hlast0

/-- C9 witness: the amended round-trip theorem applied at a concrete grid. -/
theorem grid_round_trip_stable_witness :
    (∀ row ∈ ([[ 'a', ' ' ], [' ', ' ']] : List (List Char)), '\n' ∉ row) ∧
      (Grid.fromText (Grid.toText ⟨2, 2, [['a', ' '], [' ', ' ']]⟩)).toText
        = Grid.toText ⟨2, 2, [['a', ' '], [' ', ' ']]⟩ :=
  ⟨by decide, grid_round_trip_stable ⟨2, 2, [['a', ' '], [' ', ' ']]⟩ (by decide)⟩

/-- Disjointness transport: a character in `s` is not in `t` when `s.all`
says so. -/
theorem charIn_false_of_disjoint {s t : List Char}
    (hall : s.all (fun c => !(charIn t c)) = true) {c : Char}
    (h : charIn s c = true) : charIn t c = false := by
  have hm := (charIn_iff s c).mp h
  have hb := List.all_eq_true.mp hall c hm
  simpa using hb

/-- No horizontal line character is a bridge character. -/
theorem horizontal_bridge_disjoint :
    HORIZONTAL_CHARS.all (fun c => !(charIn BRIDGE_CHARS c)) = true := by decide

/-- No vertical line character is a bridge character. -/
theorem vertical_bridge_disjoint :
    VERTICAL_CHARS.all (fun c => !(charIn BRIDGE_CHARS c)) = true := by decide

/-- No diagonal-down character is a bridge character. -/
theorem diagonal_down_bridge_disjoint :
    DIAGONAL_DOWN.all (fun c => !(charIn BRIDGE_CHARS c)) = true := by decide

/-- No diagonal-up character is a bridge character. -/
theorem diagonal_up_bridge_disjoint :
    DIAGONAL_UP.all (fun c => !(charIn BRIDGE_CHARS c)) = true := by decide

/-- Every raw lookup yields either a character of some stored row or the
space default. -/
theorem charAt_mem_or_space (g : Grid) (p : Pos) :
    (∃ row ∈ g.data, g.charAt p ∈ row) ∨ g.charAt p = ' ' := by
  unfold Grid.charAt
  by_cases hr : p.row.toNat < g.data.length
  · rw [List.getD_eq_getElem g.data [] hr]
    by_cases hc : p.col.toNat < (g.data[p.row.toNat]).length
    · left
      exact ⟨g.data[p.row.toNat], List.getElem_mem hr,
        List.getD_eq_getElem _ ' ' hc ▸ List.getElem_mem hc⟩
    · right
      exact List.getD_eq_default _ ' ' (Nat.le_of_not_lt hc)
  · rw [List.getD_eq_default g.data [] (Nat.le_of_not_lt hr)]
    right
    rfl

/-- A fold by a function that fixes every state is the identity. -/
theorem foldl_id {α β : Type} (f : α → β → α) (l : List β) (init : α)
    (h : ∀ st : α, ∀ b ∈ l, f st b = st) : l.foldl f init = init := by
  induction l generalizing init with
  | nil => rfl
  | cons b bs ih =>
    rw [List.foldl_cons, h init b (List.mem_cons_self b bs)]
    exact ih init (fun st x hx => h st x (List.mem_cons_of_mem _ hx))

/-- Fold invariant on the line component of a detector state. -/
theorem foldl_fst_inv {β : Type} (f : List Line × List Pos → β → List Line × List Pos)
    (P : Line → Prop) (l : List β)
    (hf : ∀ st b, b ∈ l → ∀ ln ∈ (f st b).1, ln ∈ st.1 ∨ P ln) :
    ∀ init, (∀ ln ∈ init.1, P ln) → ∀ ln ∈ (l.foldl f init).1, P ln := by
  induction l with
  | nil => exact fun init hinit => hinit
  | cons b bs ih =>
    intro init hinit ln hln
    refine ih (fun st x hx => hf st x (List.mem_cons_of_mem _ hx)) (f init b) ?_ ln hln
    intro ln2 hln2
    rcases hf init b (List.mem_cons_self b bs) ln2 hln2 with h | h
    · exact hinit ln2 h
    · exact h

/-- Every index-character pair collected by the inner run loop either was in
the accumulator already or holds a matching character read from the accessor
inside the scan limit. -/
theorem collectRun_mem (get : Nat → Option Char) (limit : Nat) (ms : List Char) :
    ∀ (fuel i : Nat) (acc : List (Nat × Char)),
      ∀ pr ∈ (collectRun get limit ms fuel i acc).1,
        pr ∈ acc ∨ (charIn ms pr.2 = true ∧ pr.1 < limit ∧ get pr.1 = some pr.2) := by
  intro fuel
  induction fuel with
  | zero => exact fun i acc pr hpr => .inl hpr
  | succ fuel ih =>
    intro i acc pr hpr
    rw [collectRun] at hpr
    split at hpr
    · split at hpr
      · exact .inl hpr
      · rename_i c hg
        split at hpr
        · rename_i hm
          rcases ih (i + 1) (acc ++ [(i, c)]) pr hpr with h | h
          · rcases List.mem_append.mp h with h2 | h2
            · exact .inl h2
            · have hpc : pr = (i, c) := by simpa using h2
              subst hpc
              rename_i hi _
              exact .inr ⟨hm, hi, hg⟩
          · exact .inr h
        · split at hpr
          · split at hpr
            · split at hpr
              · split at hpr
                · exact ih _ acc pr hpr
                · exact .inl hpr
              · exact .inl hpr
            · exact .inl hpr
          · exact .inl hpr
    · exact .inl hpr

/-- Every pair of every run emitted by the outer scan holds a matching
character read from the accessor inside the scan limit. -/
theorem scanRuns_cells (get : Nat → Option Char) (limit : Nat) (ms : List Char) :
    ∀ (fuel i : Nat), ∀ run ∈ scanRuns get limit ms fuel i,
      ∀ pr ∈ run, charIn ms pr.2 = true ∧ pr.1 < limit ∧ get pr.1 = some pr.2 := by
  intro fuel
  induction fuel with
  | zero =>
    intro i run hrun
    rw [scanRuns] at hrun
    exact absurd hrun (by simp)
  | succ fuel ih =>
    intro i run hrun
    rw [scanRuns] at hrun
    split at hrun
    · rename_i hi
      split at hrun
      · exact ih _ run hrun
      · rename_i c hg
        split at hrun
        · rename_i hm
          rcases List.mem_cons.mp hrun with h | h
          · subst h
            intro pr hpr
            rcases collectRun_mem get limit ms (limit + 1) (i + 1) [(i, c)] pr hpr with
              h2 | h2
            · have hpc : pr = (i, c) := by simpa using h2
              subst hpc
              exact ⟨hm, hi, hg⟩
            · exact h2
          · exact ih _ run h
        · split at hrun
          · split at hrun
            · split at hrun
              · split at hrun
                · rcases List.mem_cons.mp hrun with h | h
                  · subst h
                    intro pr hpr
                    rcases collectRun_mem get limit ms (limit + 1) (i + 1) [] pr hpr with
                      h2 | h2
                    · exact absurd h2 (by simp)
                    · exact h2
                  · exact ih _ run h
                · exact ih _ run hrun
              · exact ih _ run hrun
            · exact ih _ run hrun
          · exact ih _ run hrun
    · exact absurd hrun (by simp)

/-- If the accessor never yields a matching character, the scan emits no
runs at all: bridge characters alone never start a run. -/
theorem scanRuns_no_match (get : Nat → Option Char) (limit : Nat) (ms : List Char)
    (hnm : ∀ i c, get i = some c → charIn ms c = false) :
    ∀ (fuel i : Nat), scanRuns get limit ms fuel i = [] := by
  intro fuel
  induction fuel with
  | zero => intro i; rw [scanRuns]
  | succ fuel ih =>
    intro i
    rw [scanRuns]
    split
    · split
      · exact ih (i + 1)
      · rename_i c hg
        split
        · rename_i hm
          exact absurd hm (by rw [hnm i c hg]; exact Bool.false_ne_true)
        · split
          · split
            · rename_i p hs
              split
              · rename_i c2 hg2
                split
                · rename_i hm2
                  exact absurd hm2 (by rw [hnm p c2 hg2]; exact Bool.false_ne_true)
                · exact ih (i + 1)
              · exact ih (i + 1)
            · exact ih (i + 1)
          · exact ih (i + 1)
    · rfl

/-- Unfolding lemma for the accessor used by the horizontal scan: a
successful read is a valid in-grid cell lookup. -/
theorem getCell_map_eq_some {g : Grid} {p : Pos} {c : Char}
    (h : (g.getCell p).map (fun cl => cl.character) = some c) :
    g.getCell p = some ⟨c, p⟩ := by
  rcases Option.map_eq_some'.mp h with ⟨cell0, hcell, hchar⟩
  rw [Grid.getCell] at hcell ⊢
  split at hcell
  · rename_i hvalid
    rw [if_pos hvalid]
    cases hcell
    rw [← hchar]
  · exact absurd hcell (by simp)

/-- Every line produced by the horizontal detector runs along one row, has
at least `minLen` cells, and each cell is a valid in-grid lookup holding a
horizontal line character. -/
theorem detectHorizontalLines_spec (g : Grid) (minLen : Nat) (ln : Line)
    (h : ln ∈ detectHorizontalLines g minLen) :
    ln.direction = .horizontal ∧ minLen ≤ ln.cells.length ∧
      (∃ r : Nat, r < g.height ∧ ∀ cl ∈ ln.cells,
        cl.position.row = (r : Int) ∧ (∃ cn : Nat, cl.position.col = (cn : Int)) ∧
          charIn HORIZONTAL_CHARS cl.character = true ∧
          g.getCell cl.position = some cl) := by
  rw [detectHorizontalLines] at h
  rcases List.mem_flatten.mp h with ⟨sub, hsub, hln⟩
  rcases List.mem_map.mp hsub with ⟨r, hr, hsubeq⟩
  rw [← hsubeq] at hln
  simp only at hln
  rcases List.mem_map.mp hln with ⟨run, hrun, hlneq⟩
  have hrunscan : run ∈ scanRuns
      (fun c : Nat => (g.getCell ⟨(r : Int), (c : Int)⟩).map (fun cl => cl.character))
      g.width HORIZONTAL_CHARS (g.width + 1) 0 :=
    List.mem_of_mem_filter hrun
  have hlen : minLen ≤ run.length := by
    have := List.of_mem_filter hrun
    simpa using this
  subst hlneq
  refine ⟨rfl, by simpa using hlen, r, List.mem_range.mp hr, ?_⟩
  intro cl hcl
  rcases List.mem_map.mp hcl with ⟨ic, hic, hcleq⟩
  have hspec := scanRuns_cells _ g.width HORIZONTAL_CHARS (g.width + 1) 0 run hrunscan ic hic
  subst hcleq
  refine ⟨rfl, ⟨ic.1, rfl⟩, hspec.1, ?_⟩
  exact getCell_map_eq_some hspec.2.2

/-- Every line produced by the vertical detector runs along one column, has
at least `minLen` cells, and each cell is a valid in-grid lookup holding a
vertical line character. -/
theorem detectVerticalLines_spec (g : Grid) (minLen : Nat) (ln : Line)
    (h : ln ∈ detectVerticalLines g minLen) :
    ln.direction = .vertical ∧ minLen ≤ ln.cells.length ∧
      (∃ c : Nat, c < g.width ∧ ∀ cl ∈ ln.cells,
        cl.position.col = (c : Int) ∧ (∃ rn : Nat, cl.position.row = (rn : Int)) ∧
          charIn VERTICAL_CHARS cl.character = true ∧
          g.getCell cl.position = some cl) := by
  rw [detectVerticalLines] at h
  rcases List.mem_flatten.mp h with ⟨sub, hsub, hln⟩
  rcases List.mem_map.mp hsub with ⟨c, hc, hsubeq⟩
  rw [← hsubeq] at hln
  simp only at hln
  rcases List.mem_map.mp hln with ⟨run, hrun, hlneq⟩
  have hrunscan : run ∈ scanRuns
      (fun r : Nat => (g.getCell ⟨(r : Int), (c : Int)⟩).map (fun cl => cl.character))
      g.height VERTICAL_CHARS (g.height + 1) 0 :=
    List.mem_of_mem_filter hrun
  have hlen : minLen ≤ run.length := by
    have := List.of_mem_filter hrun
    simpa using this
  subst hlneq
  refine ⟨rfl, by simpa using hlen, c, List.mem_range.mp hc, ?_⟩
  intro cl hcl
  rcases List.mem_map.mp hcl with ⟨ic, hic, hcleq⟩
  have hspec := scanRuns_cells _ g.height VERTICAL_CHARS (g.height + 1) 0 run hrunscan ic hic
  subst hcleq
  refine ⟨rfl, ⟨ic.1, rfl⟩, hspec.1, ?_⟩
  exact getCell_map_eq_some hspec.2.2

/-- A fetched cell can be re-fetched at its own position. -/
theorem getCell_self {g : Grid} {p : Pos} {cell : Cell}
    (h : g.getCell p = some cell) : g.getCell cell.position = some cell := by
  rw [Grid.getCell] at h
  split at h
  · rename_i hvalid
    cases h
    rw [Grid.getCell]
    rw [if_pos hvalid]
  · exact absurd h (by simp)

/-- Cells gathered by the diagonal-down extension are accumulator cells or
valid in-grid cells holding a diagonal-down character. -/
theorem extendDiagDown_mem (g : Grid) (visited : List Pos) :
    ∀ (fuel : Nat) (r c : Int) (acc : List Cell),
      ∀ cl ∈ extendDiagDown g visited fuel r c acc,
        cl ∈ acc ∨ (charIn DIAGONAL_DOWN cl.character = true ∧
          g.getCell cl.position = some cl) := by
  intro fuel
  induction fuel with
  | zero => exact fun r c acc cl hcl => .inl hcl
  | succ fuel ih =>
    intro r c acc cl hcl
    rw [extendDiagDown] at hcl
    split at hcl
    · split at hcl
      · exact .inl hcl
      · split at hcl
        · rename_i cell hcell
          split at hcl
          · rename_i hchar
            rcases ih (r + 1) (c + 1) (acc ++ [cell]) cl hcl with h | h
            · rcases List.mem_append.mp h with h2 | h2
              · exact .inl h2
              · have : cl = cell := by simpa using h2
                subst this
                exact .inr ⟨hchar, getCell_self hcell⟩
            · exact .inr h
          · exact .inl hcl
        · exact .inl hcl
    · exact .inl hcl

/-- Cells gathered by the diagonal-up extension are accumulator cells or
valid in-grid cells holding a diagonal-up character. -/
theorem extendDiagUp_mem (g : Grid) (visited : List Pos) :
    ∀ (fuel : Nat) (r c : Int) (acc : List Cell),
      ∀ cl ∈ extendDiagUp g visited fuel r c acc,
        cl ∈ acc ∨ (charIn DIAGONAL_UP cl.character = true ∧
          g.getCell cl.position = some cl) := by
  intro fuel
  induction fuel with
  | zero => exact fun r c acc cl hcl => .inl hcl
  | succ fuel ih =>
    intro r c acc cl hcl
    rw [extendDiagUp] at hcl
    split at hcl
    · split at hcl
      · exact .inl hcl
      · split at hcl
        · rename_i cell hcell
          split at hcl
          · rename_i hchar
            rcases ih (r - 1) (c + 1) (acc ++ [cell]) cl hcl with h | h
            · rcases List.mem_append.mp h with h2 | h2
              · exact .inl h2
              · have : cl = cell := by simpa using h2
                subst this
                exact .inr ⟨hchar, getCell_self hcell⟩
            · exact .inr h
          · exact .inl hcl
        · exact .inl hcl
    · exact .inl hcl

/-- Every line produced by the diagonal-down detector is a diagonal-down
line of at least `minLen` valid in-grid cells holding diagonal-down
characters. -/
theorem detectDiagonalDownLines_spec (g : Grid) (minLen : Nat) (ln : Line)
    (h : ln ∈ detectDiagonalDownLines g minLen) :
    ln.direction = .diagonalDown ∧ minLen ≤ ln.cells.length ∧
      ∀ cl ∈ ln.cells, charIn DIAGONAL_DOWN cl.character = true ∧
        g.getCell cl.position = some cl := by
  rw [detectDiagonalDownLines] at h
  refine foldl_fst_inv _
    (fun ln2 => ln2.direction = .diagonalDown ∧ minLen ≤ ln2.cells.length ∧
      ∀ cl ∈ ln2.cells, charIn DIAGONAL_DOWN cl.character = true ∧
        g.getCell cl.position = some cl)
    (gridIndices g) ?_ ([], []) (by simp) ln h
  intro st b _ ln2 hln2
  dsimp only at hln2
  split at hln2
  · exact .inl hln2
  · split at hln2
    · exact .inl hln2
    · rename_i cell hcell
      split at hln2
      · rename_i hchar
        split at hln2
        · rename_i hlen
          rcases List.mem_append.mp hln2 with h2 | h2
          · exact .inl h2
          · have : ln2 = Line.mk (extendDiagDown g st.2 (g.height + g.width + 1)
                (((b.1 : Int)) + 1) (((b.2 : Int)) + 1) [cell]) .diagonalDown := by
              simpa using h2
            subst this
            refine .inr ⟨rfl, hlen, ?_⟩
            intro cl hcl
            rcases extendDiagDown_mem g st.2 (g.height + g.width + 1) _ _ [cell] cl hcl with
              h3 | h3
            · have : cl = cell := by simpa using h3
              subst this
              exact ⟨hchar, getCell_self hcell⟩
            · exact h3
        · exact .inl hln2
      · exact .inl hln2

/-- Every line produced by the diagonal-up detector is a diagonal-up line
of at least `minLen` valid in-grid cells holding diagonal-up characters. -/
theorem detectDiagonalUpLines_spec (g : Grid) (minLen : Nat) (ln : Line)
    (h : ln ∈ detectDiagonalUpLines g minLen) :
    ln.direction = .diagonalUp ∧ minLen ≤ ln.cells.length ∧
      ∀ cl ∈ ln.cells, charIn DIAGONAL_UP cl.character = true ∧
        g.getCell cl.position = some cl := by
  rw [detectDiagonalUpLines] at h
  refine foldl_fst_inv _
    (fun ln2 => ln2.direction = .diagonalUp ∧ minLen ≤ ln2.cells.length ∧
      ∀ cl ∈ ln2.cells, charIn DIAGONAL_UP cl.character = true ∧
        g.getCell cl.position = some cl)
    (gridIndices g) ?_ ([], []) (by simp) ln h
  intro st b _ ln2 hln2
  dsimp only at hln2
  split at hln2
  · exact .inl hln2
  · split at hln2
    · exact .inl hln2
    · rename_i cell hcell
      split at hln2
      · rename_i hchar
        split at hln2
        · rename_i hlen
          rcases List.mem_append.mp hln2 with h2 | h2
          · exact .inl h2
          · have : ln2 = Line.mk (extendDiagUp g st.2 (g.height + g.width + 1)
                (((b.1 : Int)) - 1) (((b.2 : Int)) + 1) [cell]) .diagonalUp := by
              simpa using h2
            subst this
            refine .inr ⟨rfl, hlen, ?_⟩
            intro cl hcl
            rcases extendDiagUp_mem g st.2 (g.height + g.width + 1) _ _ [cell] cl hcl with
              h3 | h3
            · have : cl = cell := by simpa using h3
              subst this
              exact ⟨hchar, getCell_self hcell⟩
            · exact h3
        · exact .inl hln2
      · exact .inl hln2

/-- A fetched cell holds the raw character at its fetch position. -/
theorem getCell_char_eq {g : Grid} {p : Pos} {cell : Cell}
    (h : g.getCell p = some cell) :
    cell.character = g.charAt p ∧ cell.position = p := by
  rw [Grid.getCell] at h
  split at h
  · cases h
    exact ⟨rfl, rfl⟩
  · exact absurd h (by simp)

/-- No bridge character is a horizontal line character. -/
theorem bridge_horizontal_disjoint :
    BRIDGE_CHARS.all (fun c => !(charIn HORIZONTAL_CHARS c)) = true := by decide

/-- No bridge character is a vertical line character. -/
theorem bridge_vertical_disjoint :
    BRIDGE_CHARS.all (fun c => !(charIn VERTICAL_CHARS c)) = true := by decide

/-- No bridge character is a diagonal-down character. -/
theorem bridge_diagonal_down_disjoint :
    BRIDGE_CHARS.all (fun c => !(charIn DIAGONAL_DOWN c)) = true := by decide

/-- No bridge character is a diagonal-up character. -/
theorem bridge_diagonal_up_disjoint :
    BRIDGE_CHARS.all (fun c => !(charIn DIAGONAL_UP c)) = true := by decide

/-- On a grid whose stored characters are all bridge characters, every raw
character read is a non-matching character for any of the four direction
sets that exclude spaces and bridges. -/
theorem charAt_not_match_of_all_bridge {g : Grid} {ms : List Char}
    (hb : ∀ row ∈ g.data, ∀ c ∈ row, charIn BRIDGE_CHARS c = true)
    (hdisj : BRIDGE_CHARS.all (fun c => !(charIn ms c)) = true)
    (hspace : charIn ms ' ' = false) (p : Pos) : charIn ms (g.charAt p) = false := by
  rcases charAt_mem_or_space g p with ⟨row, hrow, hm⟩ | hsp
  · exact charIn_false_of_disjoint hdisj (hb row hrow _ hm)
  · rw [hsp]
    exact hspace

/-- All-bridge grids produce no horizontal lines. -/
theorem detectHorizontalLines_all_bridge (g : Grid) (minLen : Nat)
    (hb : ∀ row ∈ g.data, ∀ c ∈ row, charIn BRIDGE_CHARS c = true) :
    detectHorizontalLines g minLen = [] := by
  rw [detectHorizontalLines, List.flatten_eq_nil_iff]
  intro sub hsub
  rcases List.mem_map.mp hsub with ⟨r, hr, heq⟩
  rw [← heq]
  dsimp only
  rw [scanRuns_no_match _ g.width HORIZONTAL_CHARS ?_ (g.width + 1) 0]
  · rfl
  · intro i c hg
    have hc := (getCell_char_eq (getCell_map_eq_some hg)).1
    dsimp only at hc
    rw [hc]
    exact charAt_not_match_of_all_bridge hb bridge_horizontal_disjoint (by decide) _

/-- All-bridge grids produce no vertical lines. -/
theorem detectVerticalLines_all_bridge (g : Grid) (minLen : Nat)
    (hb : ∀ row ∈ g.data, ∀ c ∈ row, charIn BRIDGE_CHARS c = true) :
    detectVerticalLines g minLen = [] := by
  rw [detectVerticalLines, List.flatten_eq_nil_iff]
  intro sub hsub
  rcases List.mem_map.mp hsub with ⟨c, hc, heq⟩
  rw [← heq]
  dsimp only
  rw [scanRuns_no_match _ g.height VERTICAL_CHARS ?_ (g.height + 1) 0]
  · rfl
  · intro i c2 hg
    have hc2 := (getCell_char_eq (getCell_map_eq_some hg)).1
    dsimp only at hc2
    rw [hc2]
    exact charAt_not_match_of_all_bridge hb bridge_vertical_disjoint (by decide) _

/-- All-bridge grids produce no diagonal-down lines. -/
theorem detectDiagonalDownLines_all_bridge (g : Grid) (minLen : Nat)
    (hb : ∀ row ∈ g.data, ∀ c ∈ row, charIn BRIDGE_CHARS c = true) :
    detectDiagonalDownLines g minLen = [] := by
  rw [detectDiagonalDownLines]
  rw [foldl_id _ (gridIndices g) ([], []) ?_]
  · intro st b _
    dsimp only
    split
    · rfl
    · split
      · rfl
      · rename_i cell hcell
        have hchar := (getCell_char_eq hcell).1
        have hdd : charIn DIAGONAL_DOWN cell.character = false := by
          rw [hchar]
          exact charAt_not_match_of_all_bridge hb bridge_diagonal_down_disjoint (by decide) _
        split
        · rename_i hdd2
          exact absurd hdd2 (by simp [hdd])
        · rfl

/-- All-bridge grids produce no diagonal-up lines. -/
theorem detectDiagonalUpLines_all_bridge (g : Grid) (minLen : Nat)
    (hb : ∀ row ∈ g.data, ∀ c ∈ row, charIn BRIDGE_CHARS c = true) :
    detectDiagonalUpLines g minLen = [] := by
  rw [detectDiagonalUpLines]
  rw [foldl_id _ (gridIndices g) ([], []) ?_]
  · intro st b _
    dsimp only
    split
    · rfl
    · split
      · rfl
      · rename_i cell hcell
        have hchar := (getCell_char_eq hcell).1
        have hdu : charIn DIAGONAL_UP cell.character = false := by
          rw [hchar]
          exact charAt_not_match_of_all_bridge hb bridge_diagonal_up_disjoint (by decide) _
        split
        · rename_i hdu2
          exact absurd hdu2 (by simp [hdu])
        · rfl

/-- Claim C8: every line returned by `detect_lines` contains no bridge-class
character among its cells — a bridge is only crossed when a matching-class
character follows a block of consecutive bridge characters, and bridge
characters are skipped rather than collected — a grid consisting solely of
bridge characters yields no line at all, and an empty grid yields an empty
result. -/
theorem detect_lines_bridge_characterization :
    (∀ (g : Grid) (minLen : Nat) (dd : Bool) (ln : Line),
        ln ∈ detectLines g minLen dd → ∀ cl ∈ ln.cells,
          charIn BRIDGE_CHARS cl.character = false) ∧
    (∀ (g : Grid) (minLen : Nat) (dd : Bool),
        (∀ row ∈ g.data, ∀ c ∈ row, charIn BRIDGE_CHARS c = true) →
        detectLines g minLen dd = []) ∧
    (∀ (g : Grid) (minLen : Nat) (dd : Bool),
        g.width = 0 ∨ g.height = 0 → detectLines g minLen dd = []) := by
  refine ⟨?_, ?_, ?_⟩
  · intro g minLen dd ln hln cl hcl
    rw [detectLines] at hln
    split at hln
    · exact absurd hln (by simp)
    · rcases List.mem_append.mp hln with h1 | h1
      · rcases List.mem_append.mp h1 with h2 | h2
        · exact charIn_false_of_disjoint horizontal_bridge_disjoint
            (((detectHorizontalLines_spec g minLen ln h2).2.2.choose_spec.2 cl hcl).2.2.1)
        · exact charIn_false_of_disjoint vertical_bridge_disjoint
            (((detectVerticalLines_spec g minLen ln h2).2.2.choose_spec.2 cl hcl).2.2.1)
      · split at h1
        · rcases List.mem_append.mp h1 with h2 | h2
          · exact charIn_false_of_disjoint diagonal_down_bridge_disjoint
              ((detectDiagonalDownLines_spec g minLen ln h2).2.2 cl hcl).1
          · exact charIn_false_of_disjoint diagonal_up_bridge_disjoint
              ((detectDiagonalUpLines_spec g minLen ln h2).2.2 cl hcl).1
        · exact absurd h1 (by simp)
  · intro g minLen dd hb
    rw [detectLines]
    split
    · rfl
    · rw [detectHorizontalLines_all_bridge g minLen hb,
        detectVerticalLines_all_bridge g minLen hb]
      cases dd with
      | false => rfl
      | true =>
        rw [detectDiagonalDownLines_all_bridge g minLen hb,
          detectDiagonalUpLines_all_bridge g minLen hb]
        rfl
  · intro g minLen dd h0
    rw [detectLines]
    rcases h0 with h0 | h0 <;> rw [h0] <;> simp

/-- Claim C8 witness: the characterization applied to concrete grids — a
cell of a detected line on `"+--+"`, the all-bridge grid `"++\n++"`, and an
empty grid. -/
theorem detect_lines_bridge_characterization_witness :
    charIn BRIDGE_CHARS (Cell.mk '-' ⟨0, 1⟩).character = false ∧
      detectLines (gridOfString "++\n++") 1 true = [] ∧
      detectLines (gridOfString "") 3 true = [] :=
  ⟨detect_lines_bridge_characterization.1 (gridOfString "+--+") 2 false
      (Line.mk [Cell.mk '-' ⟨0, 1⟩, Cell.mk '-' ⟨0, 2⟩] .horizontal) (by decide)
      (Cell.mk '-' ⟨0, 1⟩) (by decide),
    detect_lines_bridge_characterization.2.1 (gridOfString "++\n++") 1 true (by decide),
    detect_lines_bridge_characterization.2.2 (gridOfString "") 3 true (by decide)⟩

/-- Arithmetic form of position validity. -/
theorem isValidPos_iff (g : Grid) (p : Pos) :
    g.isValidPos p = true ↔
      0 ≤ p.row ∧ p.row < (g.height : Int) ∧ 0 ≤ p.col ∧ p.col < (g.width : Int) := by
  simp [Grid.isValidPos, and_assoc]

/-- A successful cell fetch certifies position validity. -/
theorem isValidPos_of_getCell {g : Grid} {p : Pos} {cell : Cell}
    (h : g.getCell p = some cell) : g.isValidPos p = true := by
  rw [Grid.getCell] at h
  split at h
  · assumption
  · exact absurd h (by simp)

/-- The first maximiser returned by `max(..., key=f)` is one of the
candidates. -/
theorem maxByFirst_mem {α : Type} (f : α → Int) :
    ∀ (l : List α) (best : α), maxByFirst f best l = best ∨ maxByFirst f best l ∈ l := by
  intro l
  induction l with
  | nil => intro best; exact .inl rfl
  | cons x xs ih =>
    intro best
    rw [maxByFirst]
    split
    · rcases ih x with h | h
      · exact .inr (by rw [h]; exact List.mem_cons_self x xs)
      · exact .inr (List.mem_cons_of_mem _ h)
    · rcases ih best with h | h
      · exact .inl h
      · exact .inr (List.mem_cons_of_mem _ h)

/-- Stable keyed insertion only inserts the given element. -/
theorem mem_insertByKey {α : Type} {f : α → Int} {x y : α} :
    ∀ {l : List α}, x ∈ insertByKey f y l → x = y ∨ x ∈ l := by
  intro l
  induction l with
  | nil => intro h; exact .inl (by simpa [insertByKey] using h)
  | cons z zs ih =>
    intro h
    rw [insertByKey] at h
    split at h
    · rcases List.mem_cons.mp h with h2 | h2
      · exact .inl h2
      · exact .inr h2
    · rcases List.mem_cons.mp h with h2 | h2
      · exact .inr (by rw [h2]; exact List.mem_cons_self z zs)
      · rcases ih h2 with h3 | h3
        · exact .inl h3
        · exact .inr (List.mem_cons_of_mem _ h3)

/-- The keyed sort permutes: members of the sorted list come from the
input. -/
theorem mem_sortByKey {α : Type} {f : α → Int} {x : α} :
    ∀ {l : List α}, x ∈ sortByKey f l → x ∈ l := by
  intro l
  induction l with
  | nil => intro h; exact absurd h (by simp [sortByKey])
  | cons z zs ih =>
    intro h
    rcases mem_insertByKey (h : x ∈ insertByKey f z (sortByKey f zs)) with h2 | h2
    · exact h2 ▸ List.mem_cons_self z zs
    · exact List.mem_cons_of_mem _ (ih h2)

/-- Position validity is untouched by the pure clear-and-write mirror. -/
theorem isValidPos_pureApply (c : ShiftCorrection) (g : Grid) (q : Pos) :
    (pureApply c g).isValidPos q = g.isValidPos q := by
  rw [pureApply]
  rw [foldl_setChar_isValidPos (fun cell : Cell => translatePos c cell.position)
    (fun cell : Cell => cell.character) c.line.cells _ q]
  rw [foldl_setChar_isValidPos (fun cell : Cell => cell.position)
    (fun _ : Cell => ' ') c.line.cells g q]

/-- Position validity is untouched by a correction step. -/
theorem isValidPos_applyStep (c : ShiftCorrection) (g : Grid) (q : Pos) :
    (applyStep c g).isValidPos q = g.isValidPos q := by
  rw [applyStep]
  split
  · rfl
  · exact isValidPos_pureApply c g q

/-- A correction whose original and translated positions all lie in the
grid applies successfully and performs exactly the correction step. -/
theorem applyCorrection_ok_of_wellplaced (corr : ShiftCorrection) (g : Grid)
    (horig : ∀ cell ∈ corr.line.cells, g.isValidPos cell.position = true)
    (htr : ∀ cell ∈ corr.line.cells, g.isValidPos (translatePos corr cell.position) = true) :
    applyCorrection corr g = .ok (applyStep corr g) := by
  by_cases hz : corr.rowOffset = 0 ∧ corr.colOffset = 0
  · simp only [applyCorrection, Grid.copy, hz.1, hz.2, applyStep]
    rfl
  · have hcond : (decide (corr.rowOffset = 0) && decide (corr.colOffset = 0)) = false := by
      cases hb : (decide (corr.rowOffset = 0) && decide (corr.colOffset = 0)) with
      | false => rfl
      | true =>
        simp only [Bool.and_eq_true, decide_eq_true_eq] at hb
        exact absurd hb hz
    have hstep : applyStep corr g = pureApply corr g := by
      rw [applyStep, hcond]
      rfl
    simp only [applyCorrection, Grid.copy, hcond, Bool.false_eq_true, if_false]
    have hall : corr.line.cells.all
        (fun cell => g.isValidPos (translatePos corr cell.position)) = true :=
      List.all_eq_true.mpr htr
    rw [if_neg (not_not_intro hall)]
    simp only [Grid.clearCellE]
    rw [foldlM_setCellE_ok (fun cell : Cell => cell.position) (fun _ : Cell => ' ')
      corr.line.cells g horig, except_bind_ok]
    rw [foldlM_setCellE_ok (fun cell : Cell => translatePos corr cell.position)
      (fun cell : Cell => cell.character) _ _ ?_]
    · rw [hstep]
      rfl
    · intro cell hc
      rw [foldl_setChar_isValidPos]
      exact htr cell hc

/-- The application loop over corrections that are all well-placed for the
original grid succeeds, applies every correction in order, and reports the
whole list as applied. -/
theorem applyLoop_all_ok (g0 : Grid) :
    ∀ (cs : List ShiftCorrection) (gw : Grid),
      (∀ q, gw.isValidPos q = g0.isValidPos q) →
      (∀ c ∈ cs, (∀ cell ∈ c.line.cells, g0.isValidPos cell.position = true) ∧
        (∀ cell ∈ c.line.cells, g0.isValidPos (translatePos c cell.position) = true)) →
      applyLoop cs gw = .ok (cs.foldl (fun acc c => applyStep c acc) gw, cs) := by
  intro cs
  induction cs with
  | nil => intro gw _ _; rfl
  | cons c cs ih =>
    intro gw hval hwp
    have h1 := hwp c (List.mem_cons_self c cs)
    have hok := applyCorrection_ok_of_wellplaced c gw
      (fun cell hc => (hval cell.position).trans (h1.1 cell hc))
      (fun cell hc => (hval (translatePos c cell.position)).trans (h1.2 cell hc))
    rw [applyLoop, hok]
    show Except.map (fun r => (r.1, c :: r.2)) (applyLoop cs (applyStep c gw)) = _
    rw [ih (applyStep c gw)
      (fun q => (isValidPos_applyStep c gw q).trans (hval q))
      (fun c2 hc2 => hwp c2 (List.mem_cons_of_mem _ hc2))]
    rfl

/-- An application round that applies nothing leaves the working grid
untouched. -/
theorem applyLoop_nil_applied :
    ∀ (cs : List ShiftCorrection) (gw gfin : Grid),
      applyLoop cs gw = .ok (gfin, []) → gfin = gw := by
  intro cs
  induction cs with
  | nil =>
    intro gw gfin h
    rw [applyLoop] at h
    cases h
    rfl
  | cons c cs ih =>
    intro gw gfin h
    rw [applyLoop] at h
    split at h
    · rename_i g2 hg2
      rcases hrec : applyLoop cs g2 with e | r
      · rw [hrec] at h
        exact absurd h (by simp [Except.map])
      · rw [hrec] at h
        simp only [Except.map] at h
        exact absurd (congrArg Prod.snd (Except.ok.inj h)) (by simp)
    · exact ih gw gfin h
    · exact absurd h (by simp)

/-- A built horizontal box edge starts on the tracing row: its dominant row
is the left corner's row. -/
theorem buildHorizontalLine_dominantRow {g : Grid} {a b : Pos} {ln : Line}
    (h : buildHorizontalLine g a b = some ln) : ln.dominantRow = some a.row := by
  rw [buildHorizontalLine] at h
  split at h
  · exact absurd h (by simp)
  · rename_i hlen
    cases h
    rw [Line.dominantRow]
    rcases hcells : (intRangeIncl a.col b.col).filterMap (fun col =>
        match g.getCell ⟨a.row, col⟩ with
        | some cell =>
          if charIn (HORIZONTAL_CHARS ++ CORNER_CHARS) cell.character then some cell else none
        | none => none) with _ | ⟨c0, rest⟩
    · rw [hcells] at hlen
      exact absurd (by decide) hlen
    · have hc0 : c0 ∈ (intRangeIncl a.col b.col).filterMap (fun col =>
          match g.getCell ⟨a.row, col⟩ with
          | some cell =>
            if charIn (HORIZONTAL_CHARS ++ CORNER_CHARS) cell.character then some cell
            else none
          | none => none) := by
        rw [hcells]
        exact List.mem_cons_self c0 rest
      rcases List.mem_filterMap.mp hc0 with ⟨col, _, hmatch⟩
      have hrow : c0.position.row = a.row := by
        split at hmatch
        · rename_i cell hcell
          split at hmatch
          · cases hmatch
            rw [(getCell_char_eq hcell).2]
          · exact absurd hmatch (by simp)
        · exact absurd hmatch (by simp)
      simp only [hcells]
      rw [hrow]
  /- arm order of the two splits above follows the source conditional. -/

/-- A built vertical box edge starts on the tracing column: its dominant
column is the top corner's column. -/
theorem buildVerticalLine_dominantCol {g : Grid} {a b : Pos} {ln : Line}
    (h : buildVerticalLine g a b = some ln) : ln.dominantCol = some a.col := by
  rw [buildVerticalLine] at h
  split at h
  · exact absurd h (by simp)
  · rename_i hlen
    cases h
    rw [Line.dominantCol]
    rcases hcells : (intRangeIncl a.row b.row).filterMap (fun row =>
        match g.getCell ⟨row, a.col⟩ with
        | some cell =>
          if charIn (VERTICAL_CHARS ++ CORNER_CHARS) cell.character then some cell else none
        | none => none) with _ | ⟨c0, rest⟩
    · rw [hcells] at hlen
      exact absurd (by decide) hlen
    · have hc0 : c0 ∈ (intRangeIncl a.row b.row).filterMap (fun row =>
          match g.getCell ⟨row, a.col⟩ with
          | some cell =>
            if charIn (VERTICAL_CHARS ++ CORNER_CHARS) cell.character then some cell
            else none
          | none => none) := by
        rw [hcells]
        exact List.mem_cons_self c0 rest
      rcases List.mem_filterMap.mp hc0 with ⟨row, _, hmatch⟩
      have hcol : c0.position.col = a.col := by
        split at hmatch
        · rename_i cell hcell
          split at hmatch
          · cases hmatch
            rw [(getCell_char_eq hcell).2]
          · exact absurd hmatch (by simp)
        · exact absurd hmatch (by simp)
      simp only [hcells]
      rw [hcol]

/-- A box accepted by `_try_form_box` is already closed: its traced corner
geometry makes both alignment targets coincide with the actual edges, so
`_align_box_edges` emits nothing for it. -/
theorem alignBoxEdges_tryFormBox_nil {g : Grid} {minSize : Nat} {topLeft : Pos}
    {box : BoxStructure} (h : tryFormBox g minSize topLeft = some box) :
    alignBoxEdges box = [] := by
  rw [tryFormBox] at h
  split at h
  · exact absurd h (by simp)
  · rename_i topRight htr
    split at h
    · exact absurd h (by simp)
    · rename_i bottomLeft hbl
      dsimp only at h
      split at h
      · exact absurd h (by simp)
      · split at h
        · exact absurd h (by simp)
        · split at h
          · exact absurd h (by simp)
          · rename_i cellBr hbr
            split at h
            · exact absurd h (by simp)
            · split at h
              · rename_i top bottom left right htop hbottom hleft hright
                cases h
                rw [alignBoxEdges]
                simp only [buildVerticalLine_dominantCol hleft,
                  buildHorizontalLine_dominantRow htop,
                  buildVerticalLine_dominantCol hright,
                  buildHorizontalLine_dominantRow hbottom]
                rw [if_neg (by omega), if_neg (by omega)]
                rfl
              · exact absurd h (by simp)

/-- Fold invariant on the box component of the detector state. -/
theorem foldl_fst_inv_box {β : Type}
    (f : List BoxStructure × List (Option Int × Option Int × Int × Int) → β →
      List BoxStructure × List (Option Int × Option Int × Int × Int))
    (P : BoxStructure → Prop) (l : List β)
    (hf : ∀ st b, b ∈ l → ∀ bx ∈ (f st b).1, bx ∈ st.1 ∨ P bx) :
    ∀ init, (∀ bx ∈ init.1, P bx) → ∀ bx ∈ (l.foldl f init).1, P bx := by
  induction l with
  | nil => exact fun init hinit => hinit
  | cons b bs ih =>
    intro init hinit bx hbx
    refine ih (fun st x hx => hf st x (List.mem_cons_of_mem _ hx)) (f init b) ?_ bx hbx
    intro bx2 hbx2
    rcases hf init b (List.mem_cons_self b bs) bx2 hbx2 with h | h
    · exact hinit bx2 h
    · exact h

/-- Every detected box generates no box-alignment corrections: the combined
box stage of the pipeline always computes the empty correction list. -/
theorem boxAlignmentCorrections_detectBoxes_nil (g : Grid) (minSize : Nat) :
    boxAlignmentCorrections (detectBoxes g minSize) = [] := by
  rw [boxAlignmentCorrections, List.flatten_eq_nil_iff]
  intro sub hsub
  rcases List.mem_map.mp hsub with ⟨box, hbox, heq⟩
  rw [← heq]
  have hP : ∀ bx ∈ detectBoxes g minSize, alignBoxEdges bx = [] := by
    intro bx hbx
    rw [detectBoxes] at hbx
    split at hbx
    · exact absurd hbx (by simp)
    · refine foldl_fst_inv_box _ (fun bx2 => alignBoxEdges bx2 = [])
        (findCorners g) ?_ ([], []) (by simp) bx hbx
      intro st b _ bx2 hbx2
      split at hbx2
      · exact .inl hbx2
      · rename_i bx3 hbx3
        split at hbx2
        · exact .inl hbx2
        · rcases List.mem_append.mp hbx2 with h2 | h2
          · exact .inl h2
          · have : bx2 = bx3 := by simpa using h2
            subst this
            exact .inr (alignBoxEdges_tryFormBox_nil hbx3)
  exact hP box hbox

/-- `_create_group` over pool lines yields a pool-respecting group. -/
theorem createGroup_ok {pool : List Line} {dir : Direction} {lines : List Line}
    (hsub : ∀ l ∈ lines, l ∈ pool) : GroupOK pool dir (createGroup lines dir) := by
  rw [createGroup.eq_def]
  split
  · exact ⟨rfl, by simp, .inl ⟨rfl, rfl⟩⟩
  · rename_i l ls
    refine ⟨rfl, hsub, .inr ⟨maxByFirst (fun x => (x.lengthCells : Int)) l ls, rfl, ?_, ?_⟩⟩
    · rcases maxByFirst_mem (fun x => (x.lengthCells : Int)) ls l with h | h
      · rw [h]
        exact List.mem_cons_self l ls
      · exact List.mem_cons_of_mem _ h
    · cases dir <;> rfl

/-- The grouping loop of `_group_lines_by_position` only emits
pool-respecting groups. -/
theorem groupLoop_ok {pool : List Line} (tol num den : Nat) (dir : Direction) :
    ∀ (rest current : List Line) (groups : List ParallelGroup),
      (∀ l ∈ rest, l ∈ pool) → (∀ l ∈ current, l ∈ pool) →
      (∀ gp ∈ groups, GroupOK pool dir gp) →
      ∀ gp ∈ groupLoop tol num den dir rest current groups, GroupOK pool dir gp := by
  intro rest
  induction rest with
  | nil =>
    intro current groups _ hcur hgr gp hgp
    rw [groupLoop] at hgp
    rcases List.mem_append.mp hgp with h | h
    · exact hgr gp h
    · have : gp = createGroup current.reverse dir := by simpa using h
      subst this
      exact createGroup_ok (fun l hl => hcur l (List.mem_reverse.mp hl))
  | cons line rest ih =>
    intro current groups hrest hcur hgr gp hgp
    rw [groupLoop] at hgp
    have hline : line ∈ pool := hrest line (List.mem_cons_self line rest)
    have hrest2 : ∀ l ∈ rest, l ∈ pool := fun l hl => hrest l (List.mem_cons_of_mem _ hl)
    have hnew : ∀ gp2 ∈ groups ++ [createGroup current.reverse dir], GroupOK pool dir gp2 := by
      intro gp2 hgp2
      rcases List.mem_append.mp hgp2 with h | h
      · exact hgr gp2 h
      · have : gp2 = createGroup current.reverse dir := by simpa using h
        subst this
        exact createGroup_ok (fun l hl => hcur l (List.mem_reverse.mp hl))
    split at hgp
    · split at hgp
      · exact ih (line :: current) groups hrest2
          (fun l hl => (List.mem_cons.mp hl).elim (fun e => e ▸ hline) (hcur l)) hgr gp hgp
      · exact ih [line] _ hrest2
          (fun l hl => (by simpa using hl : l = line) ▸ hline) hnew gp hgp
    · exact ih [line] _ hrest2
        (fun l hl => (by simpa using hl : l = line) ▸ hline) hnew gp hgp

/-- `_group_lines_by_position` only emits pool-respecting groups over its
input lines. -/
theorem groupLinesByPosition_ok (tol num den : Nat) (lines : List Line) (dir : Direction) :
    ∀ gp ∈ groupLinesByPosition tol num den lines dir, GroupOK lines dir gp := by
  intro gp hgp
  rw [groupLinesByPosition] at hgp
  have hsorted : ∀ l ∈ sortByKey (fun l => ((groupKeyPos dir l).getD 0 : Int))
      (lines.filter (fun l => (groupKeyPos dir l).isSome)), l ∈ lines :=
    fun l hl => List.mem_of_mem_filter (mem_sortByKey hl)
  split at hgp
  · exact absurd hgp (by simp)
  · rename_i first rest hfr
    have hin : ∀ l ∈ first :: rest, l ∈ lines := by
      rw [← hfr]
      exact hsorted
    refine groupLoop_ok tol num den dir rest [first] []
      (fun l hl => hin l (List.mem_cons_of_mem _ hl)) ?_ (by simp) gp hgp
    intro l hl
    have he : l = first := by simpa using hl
    rw [he]
    exact hin first (List.mem_cons_self first rest)

/-- `find_parallel_groups` emits groups drawn from the horizontal and
vertical sublists of its input. -/
theorem findParallelGroups_ok (tol num den : Nat) (lines : List Line) :
    ∀ gp ∈ findParallelGroups tol num den lines,
      GroupOK (lines.filter (fun l => l.direction = Direction.horizontal))
          Direction.horizontal gp ∨
        GroupOK (lines.filter (fun l => l.direction = Direction.vertical))
          Direction.vertical gp := by
  intro gp hgp
  rw [findParallelGroups] at hgp
  split at hgp
  · exact absurd hgp (by simp)
  · rcases List.mem_append.mp hgp with h | h
    · exact .inl (groupLinesByPosition_ok tol num den _ .horizontal gp h)
    · exact .inr (groupLinesByPosition_ok tol num den _ .vertical gp h)

/-- With diagonal detection off, `detect_lines` returns only the horizontal
and vertical scans. -/
theorem detectLines_false_mem {g : Grid} {minLen : Nat} {ln : Line}
    (h : ln ∈ detectLines g minLen false) :
    ln ∈ detectHorizontalLines g minLen ∨ ln ∈ detectVerticalLines g minLen := by
  rw [detectLines] at h
  split at h
  · exact absurd h (by simp)
  · rcases List.mem_append.mp h with h1 | h1
    · exact List.mem_append.mp h1
    · exact absurd h1 (by simp)

/-- A line's dominant row exposes its direction and first cell. -/
theorem dominantRow_spec {l : Line} {cur : Int} (h : l.dominantRow = some cur) :
    l.direction = Direction.horizontal ∧
      ∃ c tail, l.cells = c :: tail ∧ c.position.row = cur := by
  rw [Line.dominantRow.eq_def] at h
  split at h
  · rename_i c tail hdir hcells
    exact ⟨hdir, c, tail, hcells, by simpa using h⟩
  · exact absurd h (by simp)

/-- A line's dominant column exposes its direction and first cell. -/
theorem dominantCol_spec {l : Line} {cur : Int} (h : l.dominantCol = some cur) :
    l.direction = Direction.vertical ∧
      ∃ c tail, l.cells = c :: tail ∧ c.position.col = cur := by
  rw [Line.dominantCol.eq_def] at h
  split at h
  · rename_i c tail hdir hcells
    exact ⟨hdir, c, tail, hcells, by simpa using h⟩
  · exact absurd h (by simp)

/-- A detected horizontal line with a dominant row lies fully on that row,
which is a valid grid row. -/
theorem horizontal_line_row_bound {g : Grid} {minLen : Nat} {l : Line} {cur : Int}
    (hl : l ∈ detectLines g minLen false) (hdom : l.dominantRow = some cur) :
    0 ≤ cur ∧ cur < (g.height : Int) ∧
      ∀ cl ∈ l.cells, cl.position.row = cur ∧ g.isValidPos cl.position = true := by
  rcases dominantRow_spec hdom with ⟨hdir, c, tail, hcells, hcur⟩
  rcases detectLines_false_mem hl with h | h
  · rcases detectHorizontalLines_spec g minLen l h with ⟨_, _, r, hr, hspec⟩
    have hc := hspec c (hcells ▸ List.mem_cons_self c tail)
    have hcr : cur = (r : Int) := by rw [← hcur, hc.1]
    refine ⟨by omega, by rw [hcr]; exact_mod_cast hr, ?_⟩
    intro cl hcl
    have hcl2 := hspec cl hcl
    exact ⟨by rw [hcl2.1, hcr], isValidPos_of_getCell hcl2.2.2.2⟩
  · rcases detectVerticalLines_spec g minLen l h with ⟨hdir2, _⟩
    rw [hdir] at hdir2
    exact absurd hdir2 (by simp)

/-- A detected vertical line with a dominant column lies fully on that
column, which is a valid grid column. -/
theorem vertical_line_col_bound {g : Grid} {minLen : Nat} {l : Line} {cur : Int}
    (hl : l ∈ detectLines g minLen false) (hdom : l.dominantCol = some cur) :
    0 ≤ cur ∧ cur < (g.width : Int) ∧
      ∀ cl ∈ l.cells, cl.position.col = cur ∧ g.isValidPos cl.position = true := by
  rcases dominantCol_spec hdom with ⟨hdir, c, tail, hcells, hcur⟩
  rcases detectLines_false_mem hl with h | h
  · rcases detectHorizontalLines_spec g minLen l h with ⟨hdir2, _⟩
    rw [hdir] at hdir2
    exact absurd hdir2 (by simp)
  · rcases detectVerticalLines_spec g minLen l h with ⟨_, _, c2, hc2, hspec⟩
    have hc := hspec c (hcells ▸ List.mem_cons_self c tail)
    have hcr : cur = (c2 : Int) := by rw [← hcur, hc.1]
    refine ⟨by omega, by rw [hcr]; exact_mod_cast hc2, ?_⟩
    intro cl hcl
    have hcl2 := hspec cl hcl
    exact ⟨by rw [hcl2.1, hcr], isValidPos_of_getCell hcl2.2.2.2⟩

/-- Shape of a correction computed by `_calculate_line_correction`. -/
theorem calculateLineCorrection_spec {l : Line} {expected : Option Int}
    {dir : Direction} {corr : ShiftCorrection}
    (h : calculateLineCorrection l expected dir = some corr) :
    ∃ exp, expected = some exp ∧ corr.line = l ∧
      ((dir = Direction.horizontal ∧ ∃ cur, l.dominantRow = some cur ∧
          corr.rowOffset = exp - cur ∧ corr.colOffset = 0) ∨
        (¬ dir = Direction.horizontal ∧ ∃ cur, l.dominantCol = some cur ∧
          corr.rowOffset = 0 ∧ corr.colOffset = exp - cur)) := by
  rw [calculateLineCorrection.eq_def] at h
  split at h
  · exact absurd h (by simp)
  · rename_i exp
    split at h
    · rename_i hdir
      split at h
      · exact absurd h (by simp)
      · rename_i cur hcur
        split at h
        · exact absurd h (by simp)
        · cases h
          exact ⟨exp, rfl, rfl, .inl ⟨hdir, cur, hcur, rfl, rfl⟩⟩
    · rename_i hdir
      split at h
      · exact absurd h (by simp)
      · rename_i cur hcur
        split at h
        · exact absurd h (by simp)
        · cases h
          exact ⟨exp, rfl, rfl, .inr ⟨hdir, cur, hcur, rfl, rfl⟩⟩

/-- Every alignment correction computed for a pipeline group is well placed
on the analyzed grid: the moved line lands on the reference line's dominant
coordinate, which is a valid grid coordinate. -/
theorem calculateAlignment_wellplaced {g : Grid} {minLen : Nat} {dir : Direction}
    {gp : ParallelGroup}
    (hok : GroupOK ((detectLines g minLen false).filter
      (fun l => l.direction = dir)) dir gp) :
    ∀ corr ∈ (calculateAlignment gp).corrections, WellPlaced g corr := by
  obtain ⟨hdir, hsub, href⟩ := hok
  intro corr hcorr
  rw [calculateAlignment.eq_def] at hcorr
  split at hcorr
  · exact absurd hcorr (by simp)
  · rename_i first rest0 hglines
    dsimp only at hcorr
    rcases List.mem_filterMap.mp hcorr with ⟨l, hlf, hcalc⟩
    have hlmem : l ∈ gp.lines := List.mem_of_mem_filter hlf
    have hldet : l ∈ detectLines g minLen false := List.mem_of_mem_filter (hsub l hlmem)
    rcases calculateLineCorrection_spec hcalc with ⟨exp, hexpEq, hline, hcases⟩
    have hlref : ∃ lref, lref ∈ (detectLines g minLen false).filter
        (fun l2 => l2.direction = dir) ∧
        (if dir = Direction.horizontal then lref.dominantRow else lref.dominantCol)
          = some exp := by
      cases hexp : gp.expectedPosition with
      | some e =>
        rw [hexp] at hexpEq
        have hee : e = exp := by simpa using hexpEq
        rcases href with ⟨_, hnone⟩ | ⟨ref, _, hrefmem, hexpEq2⟩
        · rw [hexp] at hnone
          exact absurd hnone (by simp)
        · refine ⟨ref, hsub ref hrefmem, ?_⟩
          rw [← hexpEq2, hexp, hee]
      | none =>
        rw [hexp] at hexpEq
        rcases href with ⟨hrefnone, _⟩ | ⟨ref, hrefsome, hrefmem, _⟩
        · rw [hrefnone] at hexpEq
          refine ⟨first, hsub first (hglines ▸ List.mem_cons_self first rest0), ?_⟩
          rw [← hdir]
          simpa using hexpEq
        · rw [hrefsome] at hexpEq
          refine ⟨ref, hsub ref hrefmem, ?_⟩
          rw [← hdir]
          simpa using hexpEq
    rcases hlref with ⟨lref, hlrefPool, hlrefDom⟩
    have hlrefDet : lref ∈ detectLines g minLen false := List.mem_of_mem_filter hlrefPool
    rcases hcases with ⟨hdirH, cur, hcur, hro, hco⟩ | ⟨hdirH, cur, hcur, hro, hco⟩
    · have hdirH2 : dir = Direction.horizontal := by rw [← hdir, hdirH]
      rw [if_pos hdirH2] at hlrefDom
      have hexpB := horizontal_line_row_bound hlrefDet hlrefDom
      have hlB := horizontal_line_row_bound hldet hcur
      constructor
      · intro cell hc
        rw [hline] at hc
        exact (hlB.2.2 cell hc).2
      · intro cell hc
        rw [hline] at hc
        have hcell := hlB.2.2 cell hc
        have hv := (isValidPos_iff g cell.position).mp hcell.2
        rw [isValidPos_iff]
        simp only [translatePos, hro, hco]
        have hrow := hcell.1
        refine ⟨?_, ?_, ?_, ?_⟩ <;> omega
    · have hdirV : ¬ dir = Direction.horizontal := by rw [← hdir]; exact hdirH
      rw [if_neg hdirV] at hlrefDom
      have hexpB := vertical_line_col_bound hlrefDet hlrefDom
      have hlB := vertical_line_col_bound hldet hcur
      constructor
      · intro cell hc
        rw [hline] at hc
        exact (hlB.2.2 cell hc).2
      · intro cell hc
        rw [hline] at hc
        have hcell := hlB.2.2 cell hc
        have hv := (isValidPos_iff g cell.position).mp hcell.2
        rw [isValidPos_iff]
        simp only [translatePos, hro, hco]
        have hcol := hcell.1
        refine ⟨?_, ?_, ?_, ?_⟩ <;> omega

/-- A vertical stray correction moves the single stray cell onto a fetched
(hence valid) target position. -/
theorem findVerticalCorrection_spec {tol : Nat} {stray : Cell} {vlines : List Line}
    {g : Grid} {corr : ShiftCorrection}
    (h : findVerticalCorrection tol stray vlines g = some corr) :
    corr.line.cells = [stray] ∧
      g.isValidPos (translatePos corr stray.position) = true := by
  rw [findVerticalCorrection.eq_def] at h
  dsimp only at h
  split at h
  · exact absurd h (by simp)
  · split at h
    · exact absurd h (by simp)
    · rename_i bd hbd
      split at h
      · exact absurd h (by simp)
      · rename_i targetCol htc
        split at h
        · exact absurd h (by simp)
        · rename_i targetCell htcell
          split at h
          · exact absurd h (by simp)
          · cases h
            refine ⟨rfl, ?_⟩
            have hval := isValidPos_of_getCell htcell
            rw [isValidPos_iff] at hval
            rw [isValidPos_iff]
            simp only [translatePos]
            dsimp only at hval ⊢
            refine ⟨?_, ?_, ?_, ?_⟩ <;> omega

/-- A horizontal stray correction moves the single stray cell onto a
fetched (hence valid) target position. -/
theorem findHorizontalCorrection_spec {tol : Nat} {stray : Cell} {hlines : List Line}
    {g : Grid} {corr : ShiftCorrection}
    (h : findHorizontalCorrection tol stray hlines g = some corr) :
    corr.line.cells = [stray] ∧
      g.isValidPos (translatePos corr stray.position) = true := by
  rw [findHorizontalCorrection.eq_def] at h
  dsimp only at h
  split at h
  · exact absurd h (by simp)
  · split at h
    · exact absurd h (by simp)
    · rename_i bd hbd
      split at h
      · exact absurd h (by simp)
      · rename_i targetRow htr
        split at h
        · exact absurd h (by simp)
        · rename_i targetCell htcell
          split at h
          · exact absurd h (by simp)
          · cases h
            refine ⟨rfl, ?_⟩
            have hval := isValidPos_of_getCell htcell
            rw [isValidPos_iff] at hval
            rw [isValidPos_iff]
            simp only [translatePos]
            dsimp only at hval ⊢
            refine ⟨?_, ?_, ?_, ?_⟩ <;> omega

/-- Every stray-character correction is well placed: it moves one fetched
cell onto another fetched position. -/
theorem findStrayCorrections_wellplaced (g : Grid) (tol : Nat) (lines : List Line) :
    ∀ corr ∈ findStrayCorrections g tol lines, WellPlaced g corr := by
  intro corr hcorr
  rw [findStrayCorrections] at hcorr
  rcases List.mem_filterMap.mp hcorr with ⟨rc, _, hmk⟩
  dsimp only at hmk
  split at hmk
  · exact absurd hmk (by simp)
  · split at hmk
    · exact absurd hmk (by simp)
    · rename_i cell hcell
      have hcellpos := (getCell_char_eq hcell).2
      have hcellself := getCell_self hcell
      split at hmk
      · rcases findVerticalCorrection_spec hmk with ⟨hcells, htr⟩
        constructor
        · intro c2 hc2
          rw [hcells] at hc2
          have : c2 = cell := by simpa using hc2
          subst this
          exact isValidPos_of_getCell hcellself
        · intro c2 hc2
          rw [hcells] at hc2
          have : c2 = cell := by simpa using hc2
          subst this
          exact htr
      · split at hmk
        · rcases findHorizontalCorrection_spec hmk with ⟨hcells, htr⟩
          constructor
          · intro c2 hc2
            rw [hcells] at hc2
            have : c2 = cell := by simpa using hc2
            subst this
            exact isValidPos_of_getCell hcellself
          · intro c2 hc2
            rw [hcells] at hc2
            have : c2 = cell := by simpa using hc2
            subst this
            exact htr
        · exact absurd hmk (by simp)

/-- Cells collected for a row-shift correction are fetched grid cells. -/
theorem mem_rowNonSpaceCells {g : Grid} {row : Int} {cell : Cell}
    (h : cell ∈ rowNonSpaceCells g row) : g.getCell cell.position = some cell := by
  rw [rowNonSpaceCells] at h
  rcases List.mem_filterMap.mp h with ⟨c, _, hmk⟩
  split at hmk
  · exact absurd hmk (by simp)
  · rename_i cell0 hcell0
    split at hmk
    · cases hmk
      exact getCell_self hcell0
    · exact absurd hmk (by simp)

/-- Every row-shift correction passes its own bounds check: it is well
placed on the grid. -/
theorem checkRow_wellplaced {g : Grid} {tol minCons : Nat} {row : Int}
    {corr : ShiftCorrection} (h : checkRow g tol minCons row = some corr) :
    WellPlaced g corr := by
  rw [checkRow.eq_def] at h
  dsimp only at h
  split at h
  · exact absurd h (by simp)
  · split at h
    · exact absurd h (by simp)
    · rename_i d rest hoff
      split at h
      · exact absurd h (by simp)
      · split at h
        · exact absurd h (by simp)
        · split at h
          · exact absurd h (by simp)
          · split at h
            · rename_i hall
              cases h
              constructor
              · intro cell hc
                exact isValidPos_of_getCell (mem_rowNonSpaceCells hc)
              · intro cell hc
                have hcell := mem_rowNonSpaceCells hc
                have hval := (isValidPos_iff g cell.position).mp
                  (isValidPos_of_getCell hcell)
                have hbound := List.all_eq_true.mp hall cell hc
                simp only [Bool.and_eq_true, decide_eq_true_eq] at hbound
                rw [isValidPos_iff]
                simp only [translatePos]
                refine ⟨?_, ?_, ?_, ?_⟩ <;> omega
            · exact absurd h (by simp)

/-- Every correction found by the row-shift corrector is well placed. -/
theorem findRowShiftCorrections_wellplaced (g : Grid) (tol minCons : Nat) :
    ∀ corr ∈ findRowShiftCorrections g tol minCons, WellPlaced g corr := by
  intro corr hcorr
  rw [findRowShiftCorrections] at hcorr
  split at hcorr
  · exact absurd hcorr (by simp)
  · split at hcorr
    · exact absurd hcorr (by simp)
    · rcases List.mem_filterMap.mp hcorr with ⟨r, _, hchk⟩
      exact checkRow_wellplaced hchk

/-- Master placement invariant: every correction computed by the engine
pipeline is well placed on the analyzed grid. -/
theorem enginePipeline_wellplaced (P : EngineParams) (g : Grid) :
    ∀ c ∈ (enginePipeline P g).1, WellPlaced g c := by
  intro c hc
  rw [enginePipeline] at hc
  split at hc
  · exact absurd hc (by simp)
  · dsimp only at hc
    rcases List.mem_append.mp hc with h1 | h1
    · rcases List.mem_append.mp h1 with h2 | h2
      · rcases List.mem_append.mp h2 with h3 | h3
        · rcases List.mem_flatten.mp h3 with ⟨sub, hsub, hcsub⟩
          rcases List.mem_map.mp hsub with ⟨gp, hgp, heq⟩
          rw [← heq] at hcsub
          have hgp0 : gp ∈ findParallelGroups P.tolerance P.overlapNum P.overlapDen
              (detectLines g P.minLineLength false) := by
            split at hgp
            · exact List.mem_of_mem_filter hgp
            · exact hgp
          rcases findParallelGroups_ok _ _ _ _ gp hgp0 with hok | hok
          · exact calculateAlignment_wellplaced hok c hcsub
          · exact calculateAlignment_wellplaced hok c hcsub
        · rw [boxAlignmentCorrections_detectBoxes_nil g 2] at h3
          exact absurd h3 (by simp)
      · exact findStrayCorrections_wellplaced g P.tolerance _ c h2
    · exact findRowShiftCorrections_wellplaced g P.tolerance 2 c h1

/-- The engine's correction pass always succeeds and applies the whole
pipeline list, in order, to the working copy. -/
theorem correctE_applies_all (P : EngineParams) (g : Grid) :
    correctE P g = .ok ⟨g,
      (enginePipeline P g).1.foldl (fun acc c => applyStep c acc) g,
      (enginePipeline P g).1, (enginePipeline P g).2⟩ := by
  rw [correctE]
  rw [applyLoop_all_ok g (enginePipeline P g).1 g.copy (fun q => rfl)
    (fun c hc => enginePipeline_wellplaced P g c hc)]
  rfl

/-- Claim C1: for every grid, `CorrectionEngine.correct` never raises — it
returns a result whose applied list is the pipeline list filtered to the
corrections whose translated cell positions all lie inside
`[0,width) x [0,height)` (a filter that in fact keeps every computed
correction), and the remaining corrections are applied in the fixed
pipeline order to the same working copy. -/
theorem correct_never_raises_bounds_safety :
    ∀ (P : EngineParams) (g : Grid),
      correctE P g = .ok ⟨g,
        ((enginePipeline P g).1.filter (fun c => c.line.cells.all
          (fun cell => g.isValidPos (translatePos c cell.position)))).foldl
          (fun acc c => applyStep c acc) g,
        (enginePipeline P g).1.filter (fun c => c.line.cells.all
          (fun cell => g.isValidPos (translatePos c cell.position))),
        (enginePipeline P g).2⟩ := by
  intro P g
  have hfilter : (enginePipeline P g).1.filter (fun c => c.line.cells.all
      (fun cell => g.isValidPos (translatePos c cell.position)))
      = (enginePipeline P g).1 := by
    apply List.filter_eq_self.mpr
    intro c hc
    exact List.all_eq_true.mpr
      (fun cell hcell => (enginePipeline_wellplaced P g c hc).2 cell hcell)
  rw [hfilter]
  exact correctE_applies_all P g

/-- Claim C10, counterexample: the claimed divergence never happens — there
is no grid (and no engine parameters) for which `correct` applies a proper
sublist of what `analyze` reports; the two correction lists always
coincide. -/
theorem analyze_correct_lists_never_differ :
    ¬ ∃ (P : EngineParams) (g : Grid) (res : CorrectionResult),
        correctE P g = .ok res ∧
          res.correctionsApplied ≠ (analyzeE P g).correctionsApplied := by
  rintro ⟨P, g, res, hok, hne⟩
  rw [correctE_applies_all P g] at hok
  apply hne
  rw [← Except.ok.inj hok]
  rfl

/-- Claim C10 (amended): `analyze(g).corrections_applied` is the full
concatenation of the four correction families, and
`correct(g).corrections_applied` is exactly that same list — the
subsequence relation holds because the lists are equal, for every grid and
parameters. -/
theorem correct_matches_analyze (P : EngineParams) (g : Grid) (res : CorrectionResult)
    (h : correctE P g = .ok res) :
    (analyzeE P g).correctionsApplied = (enginePipeline P g).1 ∧
      res.correctionsApplied = (analyzeE P g).correctionsApplied := by
  refine ⟨rfl, ?_⟩
  rw [correctE_applies_all P g] at h
  rw [← Except.ok.inj h]
  rfl

/-- Claim C10 witness: the amended agreement applied at a concrete grid. -/
theorem correct_matches_analyze_witness :
    correctE ({} : EngineParams) (gridOfString "ab")
        = .ok ⟨gridOfString "ab", gridOfString "ab", [], []⟩ ∧
      ((analyzeE ({} : EngineParams) (gridOfString "ab")).correctionsApplied
          = (enginePipeline ({} : EngineParams) (gridOfString "ab")).1 ∧
        (⟨gridOfString "ab", gridOfString "ab", [], []⟩ :
            CorrectionResult).correctionsApplied
          = (analyzeE ({} : EngineParams) (gridOfString "ab")).correctionsApplied) :=
  ⟨by decide, correct_matches_analyze ({} : EngineParams) (gridOfString "ab")
    ⟨gridOfString "ab", gridOfString "ab", [], []⟩ (by decide)⟩

/-- Claim C3, counterexample: correcting twice is not the same as
correcting once — on the staircase grid below the second pass still shifts
a row, so the twice-corrected grid differs from the once-corrected one. -/
theorem correct_not_idempotent_counterexample :
    ((correctE ({} : EngineParams) (gridOfString "    ---\n-----\n  -----")).map
        (fun r => r.correctedGrid)).bind
      (fun g1 => (correctE ({} : EngineParams) g1).map (fun r => r.correctedGrid))
    ≠ (correctE ({} : EngineParams) (gridOfString "    ---\n-----\n  -----")).map
        (fun r => r.correctedGrid) := by decide

/-- Claim C3 (amended): a second correction pass is the identity whenever
the first pass applied no corrections — `correct` on the corrected grid of
a pass with an empty applied list returns the very same result. -/
theorem correct_idempotent_of_no_corrections (P : EngineParams) (g : Grid)
    (res : CorrectionResult) (h : correctE P g = .ok res)
    (hap : res.correctionsApplied = []) :
    correctE P res.correctedGrid = .ok res := by
  rw [correctE_applies_all P g] at h
  have hres : res = ⟨g,
      (enginePipeline P g).1.foldl (fun acc c => applyStep c acc) g,
      (enginePipeline P g).1, (enginePipeline P g).2⟩ := (Except.ok.inj h).symm
  subst hres
  have hpipe : (enginePipeline P g).1 = [] := hap
  have hg : (⟨g, (enginePipeline P g).1.foldl (fun acc c => applyStep c acc) g,
      (enginePipeline P g).1, (enginePipeline P g).2⟩ :
        CorrectionResult).correctedGrid = g := by
    dsimp only
    rw [hpipe]
    rfl
  rw [hg]
  exact correctE_applies_all P g

/-- Claim C3 witness: the amended idempotence applied at a concrete grid
whose first pass finds nothing. -/
theorem correct_idempotent_of_no_corrections_witness :
    correctE ({} : EngineParams) (gridOfString "xy")
        = .ok ⟨gridOfString "xy", gridOfString "xy", [], []⟩ ∧
      (⟨gridOfString "xy", gridOfString "xy", [], []⟩ :
          CorrectionResult).correctionsApplied = [] ∧
      correctE ({} : EngineParams)
        ((⟨gridOfString "xy", gridOfString "xy", [], []⟩ :
            CorrectionResult).correctedGrid)
        = .ok ⟨gridOfString "xy", gridOfString "xy", [], []⟩ :=
  ⟨by decide, rfl,
    correct_idempotent_of_no_corrections ({} : EngineParams) (gridOfString "xy")
      ⟨gridOfString "xy", gridOfString "xy", [], []⟩ (by decide) rfl⟩

/-- Claim C5 witness: the classifier characterization applied at a concrete
character. -/
theorem classify_character_characterization_witness :
    classifyCharacter '-' = CharacterClass.horizontal :=
  (classify_character_characterization '-').1.mpr (by decide)

/-- Claim C6 witness: the histogram characterization applied at a concrete
junction grid. -/
theorem structural_positions_characterization_witness :
    ((0 : Int), (0 : Int)) ∉ structuralPositions (gridOfString "*") :=
  (structural_positions_characterization (gridOfString "*") 0 0).2.2 (by decide)

/-- Claim C7 witness: the tree-branch characterization applied at a
concrete branch cell. -/
theorem tree_branch_characterization_witness :
    isTreeBranch (gridOfString " |\n +--") ⟨1, 1⟩ = true :=
  (tree_branch_characterization (gridOfString " |\n +--") ⟨1, 1⟩ 2).1.mpr (by decide)

/-- Claim C4 witness: the row-shift characterization applied at a concrete
shifted row. -/
theorem check_row_characterization_witness :
    ∃ d : Int, d ≠ 0 ∧ rowStructuralCols (gridOfString "|\n|\n |") 2 ≠ [] ∧
      (∀ col ∈ rowStructuralCols (gridOfString "|\n|\n |") 2,
        bestOffset (gridOfString "|\n|\n |") 1 2 2 col = d) ∧
      (⟨Line.mk [Cell.mk '|' ⟨2, 1⟩] .horizontal, 0, -1⟩ : ShiftCorrection)
        = ⟨Line.mk (rowNonSpaceCells (gridOfString "|\n|\n |") 2) .horizontal, 0, -d⟩ ∧
      rowNonSpaceCells (gridOfString "|\n|\n |") 2 ≠ [] ∧
      (∀ cell ∈ rowNonSpaceCells (gridOfString "|\n|\n |") 2,
        0 ≤ cell.position.col - d ∧
          cell.position.col - d < ((gridOfString "|\n|\n |").width : Int)) :=
  (check_row_characterization (gridOfString "|\n|\n |") 1 2 2).1
    ⟨Line.mk [Cell.mk '|' ⟨2, 1⟩] .horizontal, 0, -1⟩ (by decide)
